import Mathlib

attribute [local semireducible] Rat.add Rat.mul Rat.inv Rat.sub

/-!
# Verification of the Go board engine and search strategies

A shallow embedding of the repository's Go program (`GoBoard.py`,
`Minimax.py`, `MinimaxAlphaBeta.py`, `Expectimax.py`, `MCTS.py`) in Lean 4,
together with proofs and refutations of the specification's claims.

Conventions of the embedding:
* Python's `None`/`'BLACK'`/`'WHITE'` cell values become `Option Color`.
* The board grid `self.board` (a list of lists) becomes `List (List (Option Color))`.
* Python `int` coordinates become `ℤ` (so that `x - 1` behaves as in the source).
* Python sets of coordinates become `Finset (ℤ × ℤ)`.
* Mutation is modelled by explicit state passing: a method that mutates
  `self` and returns a `bool` becomes a function returning `Bool × GoBoard`.
* The `while stack:` flood-fill loops of the source are modelled by
  fuel-indexed recursion; a fuel budget that provably suffices is supplied
  at every call site.
-/

inductive Color where
  | black : Color
  | white : Color
deriving DecidableEq, Repr

/-- `opponent_color` from GoBoard.py (returns WHITE for BLACK and vice versa). -/
def opponent_color : Color → Color
  | Color.black => Color.white
  | Color.white => Color.black

abbrev Cell := Option Color

abbrev Grid := List (List Cell)

abbrev Pos := ℤ × ℤ

/-- `is_on_board` from GoBoard.py: `0 <= x < self.size and 0 <= y < self.size`. -/
def is_on_board (sz : ℕ) (x y : ℤ) : Bool :=
  decide (0 ≤ x ∧ x < (sz : ℤ) ∧ 0 ≤ y ∧ y < (sz : ℤ))

/-- `get_neighbors` from GoBoard.py: the four orthogonal neighbors of `(x, y)`,
filtered to those on the board. -/
def get_neighbors (sz : ℕ) (p : Pos) : List Pos :=
  [(p.1 - 1, p.2), (p.1 + 1, p.2), (p.1, p.2 - 1), (p.1, p.2 + 1)].filter
    (fun q => is_on_board sz q.1 q.2)

/-- Reading `board[x][y]` at an on-board position (the engine only reads
cells that passed the `is_on_board` filter, so plain in-range list access). -/
def cellAt (g : Grid) (p : Pos) : Cell :=
  (((g.get? p.1.toNat).getD []).get? p.2.toNat).getD none

/-- Writing `board[x][y] = v` at an on-board position. -/
def setCell (g : Grid) (p : Pos) (v : Cell) : Grid :=
  g.set p.1.toNat (((g.get? p.1.toNat).getD []).set p.2.toNat v)

/-- A grid is well-formed for size `sz` when it is an `sz × sz` table. -/
def wfGrid (sz : ℕ) (g : Grid) : Prop :=
  g.length = sz ∧ ∀ row ∈ g, row.length = sz

/-- The loop body of `get_group` from GoBoard.py: a DFS over a stack,
accumulating the set of connected same-colored cells.  `color` is the value
`board[x][y]` read once at the seed, per the source.  Python pushes each
neighbor onto the end of `stack` and pops from the end; pushing onto the
head of a Lean list in reversed order yields the identical pop order. -/
def getGroupLoop (sz : ℕ) (g : Grid) (color : Cell) :
    ℕ → Finset Pos → List Pos → Finset Pos
  | 0, group, _ => group
  | _ + 1, group, [] => group
  | fuel + 1, group, c :: rest =>
    if c ∈ group then
      getGroupLoop sz g color fuel group rest
    else
      let group' := insert c group
      let ns := (get_neighbors sz c).filter
        (fun n => cellAt g n = color ∧ n ∉ group')
      getGroupLoop sz g color fuel group' (ns.reverse ++ rest)

/-- Fuel that provably suffices for every flood-fill loop on an `sz × sz`
board (each pop either discards a stack entry or inserts a fresh on-board
cell, pushing at most four new entries). -/
def floodFuel (sz : ℕ) : ℕ := 4 * sz * sz + 8

/-- `get_group` from GoBoard.py: all stones connected to `(x, y)` through
same-colored cells (the color being whatever `board[x][y]` holds). -/
def get_group (sz : ℕ) (g : Grid) (p : Pos) : Finset Pos :=
  getGroupLoop sz g (cellAt g p) (floodFuel sz) ∅ [p]

/-- `has_liberties` from GoBoard.py: some cell of the group has an empty
on-board neighbor.  The Python loop returns `True` on the first empty
neighbor found, which computes exactly this existential. -/
def has_liberties (sz : ℕ) (group : Finset Pos) (g : Grid) : Bool :=
  decide (∃ p ∈ group, ∃ n ∈ get_neighbors sz p, cellAt g n = none)

/-- Clearing the cells of a captured group (`remove_group`'s effect on the
grid): `for x, y in group: self.board[x][y] = None`.  Python iterates the set
in unspecified order and the single-cell writes commute, so the net effect —
every cell of the group becomes empty, everything else is untouched — is
expressed pointwise. -/
def clearCells (group : Finset Pos) (g : Grid) : Grid :=
  g.mapIdx (fun i row => row.mapIdx (fun j c =>
    if ((i : ℤ), (j : ℤ)) ∈ group then none else c))

/-- Capture counters, the `self.captured` dict. -/
structure Captured where
  black : ℕ
  white : ℕ
deriving DecidableEq, Repr

def Captured.get (c : Captured) : Color → ℕ
  | Color.black => c.black
  | Color.white => c.white

def Captured.add (c : Captured) : Color → ℕ → Captured
  | Color.black, k => { c with black := c.black + k }
  | Color.white, k => { c with white := c.white + k }

/-- The `self.last_captured` dict (most recent group captured by each player;
`None` initially). -/
structure LastCaptured where
  black : Option (Finset Pos)
  white : Option (Finset Pos)
deriving DecidableEq

def LastCaptured.get (l : LastCaptured) : Color → Option (Finset Pos)
  | Color.black => l.black
  | Color.white => l.white

def LastCaptured.set (l : LastCaptured) : Color → Finset Pos → LastCaptured
  | Color.black, s => { l with black := some s }
  | Color.white, s => { l with white := some s }

/-- The `GoBoard` class state: grid, capture counts, the shared set of
previously seen configurations, and the last captured groups. -/
structure GoBoard where
  size : ℕ
  board : Grid
  captured : Captured
  previous_boards : List Grid
  last_captured : LastCaptured
deriving DecidableEq

/-- `GoBoard.__init__`: an empty `size × size` grid, zero captures,
the provided history, no last captures. -/
def GoBoard.init (size : ℕ) (previous_boards : List Grid) : GoBoard where
  size := size
  board := List.replicate size (List.replicate size none)
  captured := ⟨0, 0⟩
  previous_boards := previous_boards
  last_captured := ⟨none, none⟩

/-- State threaded through the capture scan of `play_move` /
`play_actual_move` (the mutations of `self.board`, `self.captured`,
`self.last_captured` and the local `captured_any`). -/
structure CapState where
  grid : Grid
  captured : Captured
  lastCap : LastCaptured
  any : Bool
deriving DecidableEq

/-- One iteration of the neighbor scan in `play_move` lines 135-141:
if the neighbor holds an opposing stone whose group has no liberties, the
group is removed and the capture recorded.  `trackLast` distinguishes
`play_actual_move` (which also records `last_captured`). -/
def captureStep (sz : ℕ) (color : Color) (trackLast : Bool)
    (st : CapState) (n : Pos) : CapState :=
  match cellAt st.grid n with
  | none => st
  | some nc =>
    if nc = color then st
    else
      let grp := get_group sz st.grid n
      if has_liberties sz grp st.grid then st
      else
        { grid := clearCells grp st.grid
          captured := st.captured.add nc grp.card
          lastCap := if trackLast then st.lastCap.set color grp else st.lastCap
          any := true }

/-- The full neighbor scan of `play_move` / `play_actual_move`. -/
def captureScan (sz : ℕ) (color : Color) (trackLast : Bool)
    (g1 : Grid) (cap : Captured) (lc : LastCaptured) (p : Pos) : CapState :=
  (get_neighbors sz p).foldl (captureStep sz color trackLast)
    { grid := g1, captured := cap, lastCap := lc, any := false }

/-- `play_move` from GoBoard.py lines 110-148.  Mutation of `self` is
modelled by returning the updated board next to the accept/reject flag;
the source's rollback (`self.board = board_copy; self.captured =
captured_before`) is the identity in this value-level model, so a rejected
move returns the original state. -/
def play_move (b : GoBoard) (x y : ℤ) (color : Color) : Bool × GoBoard :=
  if ¬ (is_on_board b.size x y ∧ cellAt b.board (x, y) = none) then (false, b)
  else
    let g1 := setCell b.board (x, y) (some color)
    let st := captureScan b.size color false g1 b.captured b.last_captured (x, y)
    if st.any = false ∧
        has_liberties b.size (get_group b.size st.grid (x, y)) st.grid = false then
      (false, b)
    else
      (true, { b with board := st.grid, captured := st.captured })

/-- `play_actual_move` from GoBoard.py lines 150-186: identical to
`play_move` except that each capture records the captured group in
`self.last_captured[color]` (captures only happen on accepted moves, so the
rejected branch leaves the whole state unchanged, as in the source). -/
def play_actual_move (b : GoBoard) (x y : ℤ) (color : Color) : Bool × GoBoard :=
  if ¬ (is_on_board b.size x y ∧ cellAt b.board (x, y) = none) then (false, b)
  else
    let g1 := setCell b.board (x, y) (some color)
    let st := captureScan b.size color true g1 b.captured b.last_captured (x, y)
    if st.any = false ∧
        has_liberties b.size (get_group b.size st.grid (x, y)) st.grid = false then
      (false, b)
    else
      (true, { b with board := st.grid, captured := st.captured,
                      last_captured := st.lastCap })

/-- `copy` from GoBoard.py lines 557-567: a fresh `GoBoard` of the same size
sharing `previous_boards`, whose grid is a deep copy of the original's.
The constructor leaves `captured` at zero and `last_captured` at `None`. -/
def GoBoard.copy (b : GoBoard) : GoBoard :=
  { GoBoard.init b.size b.previous_boards with board := b.board }

/-- The early-return neighbor scan of `is_legal_move` lines 229-240: for each
on-board neighbor holding an opposing stone, its group on the speculative
grid is compared against `last_captured[color]` (reject), and if it has no
liberties it is removed and the resulting configuration checked against the
history (reject), otherwise the move is immediately accepted.  `none` means
the loop ran to completion without returning. -/
def legalScan (sz : ℕ) (c : Color) (lastCap : Option (Finset Pos))
    (prev : List Grid) (g1 : Grid) : List Pos → Option Bool
  | [] => none
  | n :: rest =>
    match cellAt g1 n with
    | none => legalScan sz c lastCap prev g1 rest
    | some nc =>
      if nc = c then legalScan sz c lastCap prev g1 rest
      else
        let grp := get_group sz g1 n
        if lastCap = some grp then some false
        else if has_liberties sz grp g1 then legalScan sz c lastCap prev g1 rest
        else if clearCells grp g1 ∈ prev then some false
        else some true

/-- `is_legal_move` from GoBoard.py lines 207-246: occupied cells are
illegal; recreating a previous configuration by the bare placement is
illegal (ko); then the neighbor scan above; finally the placed stone's own
group must have a liberty. -/
def is_legal_move (b : GoBoard) (x y : ℤ) (c : Color) : Bool :=
  if cellAt b.board (x, y) ≠ none then false
  else
    let g1 := setCell b.board (x, y) (some c)
    if g1 ∈ b.previous_boards then false
    else
      match legalScan b.size c (b.last_captured.get c) b.previous_boards g1
          (get_neighbors b.size (x, y)) with
      | some r => r
      | none => has_liberties b.size (get_group b.size g1 (x, y)) g1

/-- The row-major listing of all cells of an `sz × sz` board. -/
def allCells (sz : ℕ) : List Pos :=
  (List.range sz).bind (fun x => (List.range sz).map (fun y => ((x : ℤ), (y : ℤ))))

/-- `get_legal_moves` from GoBoard.py lines 248-263: row-major scan keeping
the empty cells on which `is_legal_move` holds. -/
def get_legal_moves (b : GoBoard) (c : Color) : List Pos :=
  (allCells b.size).filter
    (fun p => cellAt b.board p = none ∧ is_legal_move b p.1 p.2 c)

/-- `is_terminal` from GoBoard.py lines 278-290. -/
def is_terminal (b : GoBoard) (c : Color) : Bool :=
  get_legal_moves b c = []

/-- `is_surrounded` from GoBoard.py lines 188-205: every on-board neighbor of
every cell of the group is a stone of the given color (an empty neighbor or
an opposing stone returns `False`). -/
def is_surrounded (sz : ℕ) (g : Grid) (group : Finset Pos) (c : Color) : Bool :=
  decide (∀ p ∈ group, ∀ n ∈ get_neighbors sz p, cellAt g n = some c)

/-- The flood-fill loop of `count_score.count_area` (GoBoard.py lines
515-530): collects a connected region of empty cells, sharing the `visited`
set with the enclosing scan.  Returns (visited, group). -/
def floodLoop (sz : ℕ) (g : Grid) :
    ℕ → Finset Pos → Finset Pos → List Pos → Finset Pos × Finset Pos
  | 0, visited, group, _ => (visited, group)
  | _ + 1, visited, group, [] => (visited, group)
  | fuel + 1, visited, group, c :: rest =>
    if c ∈ group ∨ c ∈ visited then floodLoop sz g fuel visited group rest
    else
      let group' := insert c group
      let visited' := insert c visited
      let ns := (get_neighbors sz c).filter
        (fun n => cellAt g n = none ∧ n ∉ group')
      floodLoop sz g fuel visited' group' (ns.reverse ++ rest)

/-- `count_score.count_area` (GoBoard.py lines 508-539): row-major scan; each
unvisited empty cell seeds a flood fill, and the region's size is added to
the score when it is surrounded by `color`. -/
def count_area (sz : ℕ) (g : Grid) (c : Color) : ℕ :=
  ((allCells sz).foldl
    (fun (st : Finset Pos × ℕ) p =>
      if cellAt g p = none ∧ p ∉ st.1 then
        let fl := floodLoop sz g (floodFuel sz) st.1 ∅ [p]
        (fl.1, st.2 + if is_surrounded sz g fl.2 c then fl.2.card else 0)
      else st)
    (∅, 0)).2

/-- `count_score` from GoBoard.py lines 498-543 as the pair
(black score, white score): each color's surrounded-area count plus the
stones captured from the opponent. -/
def count_score (b : GoBoard) : ℕ × ℕ :=
  (count_area b.size b.board Color.black + b.captured.white,
   count_area b.size b.board Color.white + b.captured.black)

def scoreOf (b : GoBoard) : Color → ℕ
  | Color.black => (count_score b).1
  | Color.white => (count_score b).2

/-- `evaluate_board` from GoBoard.py lines 292-303. -/
def evaluate_board (b : GoBoard) (c : Color) : ℤ :=
  (scoreOf b c : ℤ) - (scoreOf b (opponent_color c) : ℤ)

/-- `stone_count` from GoBoard.py lines 314-324. -/
def stone_count (b : GoBoard) (c : Color) : ℕ :=
  (b.board.map (fun row => row.count (some c))).sum

/-- The flood-fill loop of `controlled_territory` (GoBoard.py lines
340-363): unlike the scoring flood fill, it adds *every* popped cell to the
region and only expands across empty cells, so the region includes its
bordering stones. -/
def terrFloodLoop (sz : ℕ) (g : Grid) :
    ℕ → Finset Pos → Finset Pos → List Pos → Finset Pos × Finset Pos
  | 0, visited, group, _ => (visited, group)
  | _ + 1, visited, group, [] => (visited, group)
  | fuel + 1, visited, group, c :: rest =>
    if c ∈ group ∨ c ∈ visited then terrFloodLoop sz g fuel visited group rest
    else
      let group' := insert c group
      let visited' := insert c visited
      if cellAt g c = none then
        let ns := (get_neighbors sz c).filter (fun n => n ∉ visited')
        terrFloodLoop sz g fuel visited' group' (ns.reverse ++ rest)
      else terrFloodLoop sz g fuel visited' group' rest

/-- `controlled_territory` from GoBoard.py lines 326-372. -/
def controlled_territory (b : GoBoard) (c : Color) : ℕ :=
  ((allCells b.size).foldl
    (fun (st : Finset Pos × ℕ) p =>
      if cellAt b.board p = none ∧ p ∉ st.1 then
        let fl := terrFloodLoop b.size b.board (floodFuel b.size) st.1 ∅ [p]
        (fl.1, st.2 + if is_surrounded b.size b.board fl.2 c then fl.2.card else 0)
      else st)
    (∅, 0)).2

/-- `get_captures` from GoBoard.py lines 374-385. -/
def get_captures (b : GoBoard) (c : Color) : ℕ :=
  b.captured.get (opponent_color c)

/-- The stack loop of `potential_liberties.count_liberties` (GoBoard.py
lines 400-421): walking a color's stones, counting one per
(stone, empty neighbor) incidence, pushing empty and same-colored
neighbors. -/
def libCountLoop (sz : ℕ) (g : Grid) (c : Color) :
    ℕ → Finset Pos → ℕ → List Pos → Finset Pos × ℕ
  | 0, visited, cnt, _ => (visited, cnt)
  | _ + 1, visited, cnt, [] => (visited, cnt)
  | fuel + 1, visited, cnt, q :: rest =>
    if q ∈ visited then libCountLoop sz g c fuel visited cnt rest
    else
      let visited' := insert q visited
      if cellAt g q = some c then
        let ns := get_neighbors sz q
        let inc := (ns.filter (fun n => cellAt g n = none)).length
        let push := ns.filter (fun n => cellAt g n = none ∨ cellAt g n = some c)
        libCountLoop sz g c fuel visited' (cnt + inc) (push.reverse ++ rest)
      else libCountLoop sz g c fuel visited' cnt rest

/-- `potential_liberties` from GoBoard.py lines 387-428. -/
def potential_liberties (b : GoBoard) (c : Color) : ℕ :=
  ((allCells b.size).foldl
    (fun (st : Finset Pos × ℕ) p =>
      if cellAt b.board p = some c ∧ p ∉ st.1 then
        libCountLoop b.size b.board c (floodFuel b.size) st.1 st.2 [p]
      else st)
    (∅, 0)).2

/-- `corner_and_edge_control` from GoBoard.py lines 430-447. -/
def corner_and_edge_control (b : GoBoard) (c : Color) : ℕ :=
  ((allCells b.size).filter (fun p =>
    cellAt b.board p = some c ∧
      (((p.1 = 0 ∨ p.1 = (b.size : ℤ) - 1) ∧ (p.2 = 0 ∨ p.2 = (b.size : ℤ) - 1)) ∨
        ((p.1 = 0 ∨ p.1 = (b.size : ℤ) - 1) ∨ (p.2 = 0 ∨ p.2 = (b.size : ℤ) - 1))))).length

/-- `evaluate_board_using_heuristic` from GoBoard.py lines 449-466. -/
def evaluate_board_using_heuristic (b : GoBoard) (c : Color) : ℤ :=
  (stone_count b c : ℤ) * 1 + (controlled_territory b c : ℤ) * 5 +
    (get_captures b c : ℤ) * 3 + (potential_liberties b c : ℤ) * 2 +
    (corner_and_edge_control b c : ℤ) * 4

/-- `evaluate_board_using_heuristic2` from GoBoard.py lines 468-484. -/
def evaluate_board_using_heuristic2 (b : GoBoard) (c : Color) : ℤ :=
  (stone_count b c : ℤ) * 1 + (controlled_territory b c : ℤ) * 5 +
    (get_captures b c : ℤ) * 3 + (potential_liberties b c : ℤ) * 2

/-!
## Search strategies

Python floats appear in the searches only as exact small rationals and the
sentinels `float('inf')` / `-float('inf')`, so they are modelled exactly by
a rational number extended with two infinities.
-/

inductive XFloat where
  | ninf : XFloat
  | fin : ℚ → XFloat
  | pinf : XFloat
deriving DecidableEq, Repr

namespace XFloat

/-- The strict order `a < b` on extended rationals (Python `<` on floats). -/
def blt : XFloat → XFloat → Bool
  | ninf, ninf => false
  | ninf, _ => true
  | fin _, ninf => false
  | fin a, fin b => a < b
  | fin _, pinf => true
  | pinf, _ => false

/-- `a <= b` (Python `<=` on floats). -/
def ble : XFloat → XFloat → Bool
  | ninf, _ => true
  | fin _, ninf => false
  | fin a, fin b => a ≤ b
  | fin _, pinf => true
  | pinf, pinf => true
  | pinf, _ => false

/-- Python `max(a, b)` (returns `a` when equal). -/
def fmax (a b : XFloat) : XFloat := if blt a b then b else a

/-- Python `min(a, b)` (returns `a` when equal). -/
def fmin (a b : XFloat) : XFloat := if blt b a then b else a

/-- Addition; the mixed-infinity case is unreachable in the programs
modelled here (all summed values are finite). -/
def add : XFloat → XFloat → XFloat
  | fin a, fin b => fin (a + b)
  | ninf, _ => ninf
  | _, ninf => ninf
  | pinf, _ => pinf
  | _, pinf => pinf

/-- Division by a (positive) count, for the expectimax average. -/
def divN : XFloat → ℕ → XFloat
  | fin a, n => fin (a / n)
  | ninf, _ => ninf
  | pinf, _ => pinf

end XFloat

/-- `XFloat` under `blt` / `ble` is the linear order of the extended
rationals; `fmax` / `fmin` are its lattice operations. -/
instance : LinearOrder XFloat where
  le a b := XFloat.ble a b = true
  lt a b := XFloat.blt a b = true
  le_refl a := by cases a <;> simp [XFloat.ble]
  le_trans a b c hab hbc := by
    cases a <;> cases b <;> cases c <;>
      simp_all [XFloat.ble] <;> linarith
  le_antisymm a b hab hba := by
    cases a <;> cases b <;> simp_all [XFloat.ble] <;> linarith
  le_total a b := by
    cases a <;> cases b <;> simp [XFloat.ble]
    next p q => exact le_total p q
  lt_iff_le_not_le a b := by
    cases a <;> cases b <;> simp [XFloat.ble, XFloat.blt]
    next p q => exact fun h => le_of_lt h
  decidableLE a b := inferInstanceAs (Decidable (XFloat.ble a b = true))
  min := XFloat.fmin
  max := XFloat.fmax
  min_def a b := by
    cases a <;> cases b <;>
      simp [XFloat.fmin, XFloat.blt, XFloat.ble]
    next p q =>
      rcases le_or_lt p q with h | h
      · simp [h, not_lt.2 h]
      · simp [not_le.2 h, le_of_lt h]
  max_def a b := by
    cases a <;> cases b <;>
      simp [XFloat.fmax, XFloat.blt, XFloat.ble]
    next p q =>
      rcases le_or_lt p q with h | h
      · rcases lt_or_eq_of_le h with h2 | h2
        · simp [h, h2]
        · subst h2
          simp
      · simp [not_le.2 h, le_of_lt h]

/-- The `self.memo` dictionaries: keyed by the board serialization (the grid),
the color to move and the remaining depth — per `_board_to_key`, neither the
capture counts nor the alpha/beta window are part of the key. -/
abbrev Memo := List ((Grid × Color × ℕ) × XFloat)

def memoFind (m : Memo) (k : Grid × Color × ℕ) : Option XFloat :=
  (m.find? (fun e => e.1 = k)).map (·.2)

/-- `Minimax._minimax_search` (Minimax.py lines 27-64) with the memo
dictionary threaded explicitly, generic in the leaf evaluator `ev`
(the source instantiates `ev` with `evaluate_board`).  The
`for move in moves` loop is a fold computing the running best value. -/
def minimax_search (ev : GoBoard → Color → ℚ) :
    ℕ → GoBoard → Color → Bool → Memo → XFloat × Memo
  | depth, b, c, maximizing, memo =>
    let key := (b.board, c, depth)
    match memoFind memo key with
    | some v => (v, memo)
    | none =>
      match depth with
      | 0 =>
        let v := XFloat.fin (ev b c)
        (v, (key, v) :: memo)
      | d + 1 =>
        let moves := get_legal_moves b c
        if moves = [] then
          let v := XFloat.fin (ev b c)
          (v, (key, v) :: memo)
        else
          let r := moves.foldl
            (fun (acc : XFloat × Memo) mv =>
              let bc := (play_move b.copy mv.1 mv.2 c).2
              let s := minimax_search ev d bc (opponent_color c) (!maximizing) acc.2
              (if maximizing then XFloat.fmax acc.1 s.1 else XFloat.fmin acc.1 s.1,
                s.2))
            (if maximizing then XFloat.ninf else XFloat.pinf, memo)
          (r.1, (key, r.1) :: r.2)

/-- `Minimax.minimax` (Minimax.py lines 10-25): the root loop over legal
moves; faithful for root depths ≥ 1 (the source decrements a Python int, so
`depth - 1` is natural subtraction only in that range). -/
def minimax (ev : GoBoard → Color → ℚ) (b : GoBoard) (c : Color) (depth : ℕ) :
    Option Pos × XFloat :=
  ((get_legal_moves b c).foldl
    (fun (st : (Option Pos × XFloat) × Memo) mv =>
      let bc := (play_move b.copy mv.1 mv.2 c).2
      let r := minimax_search ev (depth - 1) bc (opponent_color c) false st.2
      if XFloat.blt st.1.2 r.1 then ((some mv, r.1), r.2) else (st.1, r.2))
    ((none, XFloat.ninf), [])).1

/-- The pruning loop of `MinimaxAlphaBeta._minimax_search`
(MinimaxAlphaBeta.py lines 97-121), abstracted over the recursive child
search `f`: it stops early when `beta <= alpha`, returning the possibly
cut-off `best_value`. -/
def alphabeta_loop (f : GoBoard → XFloat → XFloat → Memo → XFloat × Memo)
    (b : GoBoard) (c : Color) (maximizing : Bool) :
    List Pos → XFloat → XFloat → XFloat → Memo → XFloat × Memo
  | [], best, _, _, memo => (best, memo)
  | mv :: rest, best, alpha, beta, memo =>
    let bc := (play_move b.copy mv.1 mv.2 c).2
    let r := f bc alpha beta memo
    if maximizing then
      let best2 := XFloat.fmax best r.1
      let alpha2 := XFloat.fmax alpha r.1
      if XFloat.ble beta alpha2 then (best2, r.2)
      else alphabeta_loop f b c maximizing rest best2 alpha2 beta r.2
    else
      let best2 := XFloat.fmin best r.1
      let beta2 := XFloat.fmin beta r.1
      if XFloat.ble beta2 alpha then (best2, r.2)
      else alphabeta_loop f b c maximizing rest best2 alpha beta2 r.2

/-- `MinimaxAlphaBeta._minimax_search` (MinimaxAlphaBeta.py lines 55-121)
with the memo threaded, generic in the leaf evaluator (the source
instantiates it with the heuristic difference). -/
def alphabeta_search (ev : GoBoard → Color → ℚ) :
    ℕ → GoBoard → Color → XFloat → XFloat → Bool → Memo → XFloat × Memo
  | depth, b, c, alpha, beta, maximizing, memo =>
    let key := (b.board, c, depth)
    match memoFind memo key with
    | some v => (v, memo)
    | none =>
      match depth with
      | 0 =>
        let v := XFloat.fin (ev b c)
        (v, (key, v) :: memo)
      | d + 1 =>
        let moves := get_legal_moves b c
        if moves = [] then
          let v := XFloat.fin (ev b c)
          (v, (key, v) :: memo)
        else
          let r := alphabeta_loop
            (fun bc a2 b2 m =>
              alphabeta_search ev d bc (opponent_color c) a2 b2 (!maximizing) m)
            b c maximizing moves
            (if maximizing then XFloat.ninf else XFloat.pinf) alpha beta memo
          (r.1, (key, r.1) :: r.2)

/-- `MinimaxAlphaBeta.minimax` (MinimaxAlphaBeta.py lines 28-53): root loop
with window `(-inf, +inf)`, tightening `alpha` as better values appear;
returns `(best_move, alpha)`. -/
def alphabeta_minimax (ev : GoBoard → Color → ℚ) (b : GoBoard) (c : Color)
    (depth : ℕ) : Option Pos × XFloat :=
  ((get_legal_moves b c).foldl
    (fun (st : (Option Pos × XFloat) × Memo) mv =>
      let bc := (play_move b.copy mv.1 mv.2 c).2
      let r := alphabeta_search ev (depth - 1) bc (opponent_color c)
        st.1.2 XFloat.pinf false st.2
      if XFloat.blt st.1.2 r.1 then ((some mv, r.1), r.2) else (st.1, r.2))
    ((none, XFloat.ninf), [])).1

/-- `Expectimax._expectimax_search` (Expectimax.py lines 49-97) with the
memo threaded.  Leaves use `evaluate_board_using_heuristic2`; exhausted
positions use `evaluate_board`; **the maximizing branch is taken exactly
when the node color is BLACK** (`if color == "BLACK"`), all other nodes
average their children. -/
def expectimax_search :
    ℕ → GoBoard → Color → Memo → XFloat × Memo
  | depth, b, c, memo =>
    let key := (b.board, c, depth)
    match memoFind memo key with
    | some v => (v, memo)
    | none =>
      match depth with
      | 0 =>
        let v := XFloat.fin (evaluate_board_using_heuristic2 b c)
        (v, (key, v) :: memo)
      | d + 1 =>
        let moves := get_legal_moves b c
        if moves = [] then
          let v := XFloat.fin (evaluate_board b c)
          (v, (key, v) :: memo)
        else if c = Color.black then
          let r := moves.foldl
            (fun (acc : XFloat × Memo) mv =>
              let bc := (play_move b.copy mv.1 mv.2 c).2
              let s := expectimax_search d bc (opponent_color c) acc.2
              (XFloat.fmax acc.1 s.1, s.2))
            (XFloat.ninf, memo)
          (r.1, (key, r.1) :: r.2)
        else
          let r := moves.foldl
            (fun (acc : XFloat × Memo) mv =>
              let bc := (play_move b.copy mv.1 mv.2 c).2
              let s := expectimax_search d bc (opponent_color c) acc.2
              (XFloat.add acc.1 s.1, s.2))
            (XFloat.fin 0, memo)
          let avg := XFloat.divN r.1 moves.length
          (avg, (key, avg) :: r.2)

/-- `Expectimax.expectimax` (Expectimax.py lines 25-46): root maximization
over legal moves; faithful for root depths ≥ 1. -/
def expectimax (b : GoBoard) (c : Color) (depth : ℕ) : Option Pos × XFloat :=
  ((get_legal_moves b c).foldl
    (fun (st : (Option Pos × XFloat) × Memo) mv =>
      let bc := (play_move b.copy mv.1 mv.2 c).2
      let r := expectimax_search (depth - 1) bc (opponent_color c) st.2
      if XFloat.blt st.1.2 r.1 then ((some mv, r.1), r.2) else (st.1, r.2))
    ((none, XFloat.ninf), [])).1

/-- Modelled from the spec: the expectimax tree the specification describes —
"the searching color's turns maximize; the opponent's turns average over all
legal moves with uniform probability".  Identical to `expectimax_search`
except that the maximizing test compares the node color with the *searching*
color `s` instead of the literal BLACK. -/
def expectimaxSpec_search (s : Color) :
    ℕ → GoBoard → Color → Memo → XFloat × Memo
  | depth, b, c, memo =>
    let key := (b.board, c, depth)
    match memoFind memo key with
    | some v => (v, memo)
    | none =>
      match depth with
      | 0 =>
        let v := XFloat.fin (evaluate_board_using_heuristic2 b c)
        (v, (key, v) :: memo)
      | d + 1 =>
        let moves := get_legal_moves b c
        if moves = [] then
          let v := XFloat.fin (evaluate_board b c)
          (v, (key, v) :: memo)
        else if c = s then
          let r := moves.foldl
            (fun (acc : XFloat × Memo) mv =>
              let bc := (play_move b.copy mv.1 mv.2 c).2
              let t := expectimaxSpec_search s d bc (opponent_color c) acc.2
              (XFloat.fmax acc.1 t.1, t.2))
            (XFloat.ninf, memo)
          (r.1, (key, r.1) :: r.2)
        else
          let r := moves.foldl
            (fun (acc : XFloat × Memo) mv =>
              let bc := (play_move b.copy mv.1 mv.2 c).2
              let t := expectimaxSpec_search s d bc (opponent_color c) acc.2
              (XFloat.add acc.1 t.1, t.2))
            (XFloat.fin 0, memo)
          let avg := XFloat.divN r.1 moves.length
          (avg, (key, avg) :: r.2)

/-- `Minimax._minimax_search` with the memoization dictionary removed:
the plain game-theoretic minimax value of the position. -/
def minimaxPure (ev : GoBoard → Color → ℚ) : ℕ → GoBoard → Color → Bool → XFloat
  | 0, b, c, _ => XFloat.fin (ev b c)
  | d + 1, b, c, maximizing =>
    let moves := get_legal_moves b c
    if moves = [] then XFloat.fin (ev b c)
    else moves.foldl
      (fun acc mv =>
        let bc := (play_move b.copy mv.1 mv.2 c).2
        let v := minimaxPure ev d bc (opponent_color c) (!maximizing)
        if maximizing then XFloat.fmax acc v else XFloat.fmin acc v)
      (if maximizing then XFloat.ninf else XFloat.pinf)

/-- The pruning loop of `MinimaxAlphaBeta._minimax_search` with the memo
removed, abstracted over the recursive child search `f`. -/
def alphabetaPure_loop (f : GoBoard → XFloat → XFloat → XFloat)
    (b : GoBoard) (c : Color) (maximizing : Bool) :
    List Pos → XFloat → XFloat → XFloat → XFloat
  | [], best, _, _ => best
  | mv :: rest, best, alpha, beta =>
    let bc := (play_move b.copy mv.1 mv.2 c).2
    let v := f bc alpha beta
    if maximizing then
      let best2 := XFloat.fmax best v
      let alpha2 := XFloat.fmax alpha v
      if XFloat.ble beta alpha2 then best2
      else alphabetaPure_loop f b c maximizing rest best2 alpha2 beta
    else
      let best2 := XFloat.fmin best v
      let beta2 := XFloat.fmin beta v
      if XFloat.ble beta2 alpha then best2
      else alphabetaPure_loop f b c maximizing rest best2 alpha beta2

/-- `MinimaxAlphaBeta._minimax_search` with the memoization dictionary
removed: pure alpha-beta pruning over the same tree as `minimaxPure`. -/
def alphabetaPure (ev : GoBoard → Color → ℚ) :
    ℕ → GoBoard → Color → XFloat → XFloat → Bool → XFloat
  | 0, b, c, _, _, _ => XFloat.fin (ev b c)
  | d + 1, b, c, alpha, beta, maximizing =>
    let moves := get_legal_moves b c
    if moves = [] then XFloat.fin (ev b c)
    else alphabetaPure_loop
      (fun bc a2 b2 => alphabetaPure ev d bc (opponent_color c) a2 b2 (!maximizing))
      b c maximizing moves
      (if maximizing then XFloat.ninf else XFloat.pinf) alpha beta

/-- `Minimax.minimax`'s root loop over the memoless search. -/
def minimaxPureRoot (ev : GoBoard → Color → ℚ) (b : GoBoard) (c : Color)
    (depth : ℕ) : Option Pos × XFloat :=
  (get_legal_moves b c).foldl
    (fun (st : Option Pos × XFloat) mv =>
      let bc := (play_move b.copy mv.1 mv.2 c).2
      let v := minimaxPure ev (depth - 1) bc (opponent_color c) false
      if XFloat.blt st.2 v then (some mv, v) else st)
    (none, XFloat.ninf)

/-- `MinimaxAlphaBeta.minimax`'s root loop over the memoless search: the
running `alpha` is the best value so far, the window is `(alpha, +inf)`. -/
def alphabetaPureRoot (ev : GoBoard → Color → ℚ) (b : GoBoard) (c : Color)
    (depth : ℕ) : Option Pos × XFloat :=
  (get_legal_moves b c).foldl
    (fun (st : Option Pos × XFloat) mv =>
      let bc := (play_move b.copy mv.1 mv.2 c).2
      let v := alphabetaPure ev (depth - 1) bc (opponent_color c)
        st.2 XFloat.pinf false
      if XFloat.blt st.2 v then (some mv, v) else st)
    (none, XFloat.ninf)

/-- A base-3 code of the grid contents, used to build a concrete
injective-enough leaf evaluator for comparing the two searches. -/
def cellCode : Cell → ℕ
  | none => 0
  | some Color.black => 1
  | some Color.white => 2

def gridCode (g : Grid) : ℕ :=
  g.foldl (fun acc row => row.foldl (fun a k => a * 3 + cellCode k) acc) 0

def blackBit : Color → ℕ
  | Color.black => 1
  | Color.white => 0

/-- A concrete position-dependent leaf evaluator (any Python evaluation
function of the board and color could behave like this one). -/
def evS (b : GoBoard) (c : Color) : ℚ := ((gridCode b.board * 5 + blackBit c) % 13 : ℕ)

/-- A 2×2 board with one white stone, used to separate the two searches. -/
def C3board : GoBoard := ⟨2, [[some Color.white, none], [none, none]], ⟨0, 0⟩, [], ⟨none, none⟩⟩

/-- An MCTS tree node (MCTS.py lines 13-41): board, color to move, the move
that led here, the children in insertion order, visit count and accumulated
value.  Parent pointers are omitted — they matter only to backpropagation,
which lives inside the abstracted iteration below. -/
structure MCTSNode where
  board : GoBoard
  color : Color
  move : Option Pos
  children : List MCTSNode
  visits : ℕ
  value : ℚ

/-- `MCTSNode.uct_score` at exploration weight 0, as used by the final
`best_child(0)`: `inf` for unvisited nodes, otherwise `value / visits`
(the `0 * sqrt(log(parent_visits) / visits)` term vanishes). -/
def uct_score0 (n : MCTSNode) : XFloat :=
  if n.visits = 0 then XFloat.pinf else XFloat.fin (n.value / n.visits)

/-- `MCTSNode.best_child` at exploration weight 0 (MCTS.py lines 55-73):
`None` on no children, otherwise the first child attaining the maximal
score (Python `max` keeps the first maximum). -/
def best_child0 : List MCTSNode → Option MCTSNode
  | [] => none
  | c :: cs =>
    some (cs.foldl (fun acc n =>
      if XFloat.blt (uct_score0 acc) (uct_score0 n) then n else acc) c)

/-- `MCTS.mcts_search` (MCTS.py lines 121-138), abstracted over the
select/expand/simulate/backpropagate iteration `iter` (whose rollout
randomness and floating-point UCT scores live outside the pure model): the
root starts with no children, `iter` runs `iterations` times, and the move
of the best child at exploration weight 0 is returned. -/
def mcts_search (iter : MCTSNode → MCTSNode) (b : GoBoard) (c : Color)
    (iterations : ℕ) : Option Pos :=
  let root : MCTSNode := ⟨b, c, none, [], 0, 0⟩
  match best_child0 (iter^[iterations] root).children with
  | some nd => nd.move
  | none => none

/-- One connectivity step: `b` is an on-board neighbor of `a` holding the
value `v`. -/
def adjStep (sz : ℕ) (g : Grid) (v : Cell) (a b : Pos) : Prop :=
  b ∈ get_neighbors sz a ∧ cellAt g b = v

/-- Reachability through cells of value `v` (the mathematical connected
component explored by `get_group`). -/
def ReachCell (sz : ℕ) (g : Grid) (v : Cell) (a b : Pos) : Prop :=
  Relation.ReflTransGen (adjStep sz g v) a b

/-- The on-board positions as a finite set. -/
def onboardFinset (sz : ℕ) : Finset Pos :=
  Finset.Icc ((0 : ℤ), (0 : ℤ)) ((sz : ℤ) - 1, (sz : ℤ) - 1)

/-- Cells can only change from an opposing stone to empty as the capture
scan proceeds. -/
def GridStepRel (sz : ℕ) (c : Color) (h h' : Grid) : Prop :=
  ∀ q, is_on_board sz q.1 q.2 = true →
    cellAt h' q = cellAt h q ∨
      (cellAt h' q = none ∧ cellAt h q = some (opponent_color c))

/-- The invariant carried through the capture scan, relative to the grid
`g1` holding the freshly placed stone. -/
def ScanInv (sz : ℕ) (c : Color) (p : Pos) (g1 : Grid) (cap0 : Captured)
    (lc0 : LastCaptured) (st : CapState) : Prop :=
  wfGrid sz st.grid ∧
  GridStepRel sz c g1 st.grid ∧
  (∀ q, is_on_board sz q.1 q.2 = true →
    cellAt st.grid q = some (opponent_color c) →
    get_group sz st.grid q = get_group sz g1 q) ∧
  (st.any = true → ∃ n ∈ get_neighbors sz p,
    cellAt st.grid n = none ∧ cellAt g1 n = some (opponent_color c)) ∧
  (st.any = false → st = ⟨g1, cap0, lc0, false⟩)

/-- The liberty invariant: every stone on the board belongs to a group with
at least one liberty.  (Quantifying over the on-board cells keeps the
predicate decidable.) -/
def LibertyInv (sz : ℕ) (g : Grid) : Prop :=
  ∀ q ∈ onboardFinset sz, cellAt g q ≠ none →
    has_liberties sz (get_group sz g q) g = true

instance (sz : ℕ) (g : Grid) : Decidable (wfGrid sz g) := by
  unfold wfGrid
  infer_instance

instance (sz : ℕ) (g : Grid) : Decidable (LibertyInv sz g) := by
  unfold LibertyInv
  infer_instance

def C1board : GoBoard :=
  ⟨2, [[none, some Color.white], [some Color.white, none]], ⟨0, 0⟩, [], ⟨none, none⟩⟩

def C2board : GoBoard :=
  ⟨2, [[none, some Color.white], [none, none]], ⟨0, 0⟩, [], ⟨none, none⟩⟩

def C8board : GoBoard :=
  ⟨2, [[none, some Color.white], [none, some Color.black]], ⟨0, 0⟩, [], ⟨none, none⟩⟩

/-- One accepted move of the game loop (goGameAI.py lines 179-183): the
chosen move is applied with `play_actual_move` and the resulting
configuration is recorded in the shared history. -/
def game_move (b : GoBoard) (c : Color) (mv : Pos) : GoBoard :=
  let r := play_actual_move b mv.1 mv.2 c
  { r.2 with previous_boards := r.2.board :: r.2.previous_boards }

def koGridP0 : Grid :=
  [[none, some Color.black, none, none],
   [some Color.black, some Color.white, some Color.black, none],
   [some Color.white, none, some Color.white, none],
   [none, some Color.white, none, none]]

def koGridP1 : Grid :=
  [[none, some Color.black, none, none],
   [some Color.black, none, some Color.black, none],
   [some Color.white, some Color.black, some Color.white, none],
   [none, some Color.white, none, none]]

/-- The position after Black's ko capture at (2,1): the pre-capture position
`koGridP0` and the current position are both in the history, and Black's
last capture was the single white stone at (1,1). -/
def koBoard : GoBoard :=
  ⟨4, koGridP1, ⟨0, 1⟩, [koGridP1, koGridP0], ⟨some {((1 : ℤ), (1 : ℤ))}, none⟩⟩

def fullBoard1 : GoBoard := ⟨1, [[some Color.black]], ⟨0, 0⟩, [], ⟨none, none⟩⟩

/-- Modelled from the spec: the root loop of the expectimax the
specification describes, maximizing for the searching color `s`. -/
def expectimaxSpecRoot (s : Color) (b : GoBoard) (c : Color) (depth : ℕ) :
    Option Pos × XFloat :=
  ((get_legal_moves b c).foldl
    (fun (st : (Option Pos × XFloat) × Memo) mv =>
      let bc := (play_move b.copy mv.1 mv.2 c).2
      let r := expectimaxSpec_search s (depth - 1) bc (opponent_color c) st.2
      if XFloat.blt st.1.2 r.1 then ((some mv, r.1), r.2) else (st.1, r.2))
    ((none, XFloat.ninf), [])).1

/-- The chance-node average (`total_value / len(moves)`, Expectimax.py
line 95) over a list of exact rational values. -/
def average_value (l : List ℚ) : ℚ := l.sum / l.length

def emptyB2 : GoBoard := GoBoard.init 2 []

/-- The fail-soft alpha-beta relation: against window `(α, β)`, a returned
value `r` under-approximates the true value `v` when it fails low, 
over-approximates it when it fails high, and equals it inside the window. -/
def ABrel (r α β v : XFloat) : Prop :=
  (r ≤ α → v ≤ r) ∧ (β ≤ r → r ≤ v) ∧ (α < r → r < β → r = v)

/-- Board states reachable by the goGameAI game loop: play starts from a
fresh board with BLACK to move, and every accepted `play_actual_move`
records the configuration and passes the turn. -/
inductive Reachable (N : ℕ) : GoBoard → Color → Prop where
  | init : Reachable N (GoBoard.init N []) Color.black
  | step (b : GoBoard) (c : Color) (mv : Pos)
      (hr : Reachable N b c)
      (hacc : (play_actual_move b mv.1 mv.2 c).1 = true) :
      Reachable N (game_move b c mv) (opponent_color c)

def C9b0 : GoBoard := GoBoard.init 2 []

def C9b1 : GoBoard := game_move C9b0 Color.black (0, 0)

def C9b2 : GoBoard := game_move C9b1 Color.white (0, 1)

def C9b3 : GoBoard := game_move C9b2 Color.black (1, 0)

def C9b4 : GoBoard := game_move C9b3 Color.white (1, 1)

def C9b5 : GoBoard := game_move C9b4 Color.black (1, 0)

def C9b6 : GoBoard := game_move C9b5 Color.white (0, 0)

def C9b7 : GoBoard := game_move C9b6 Color.black (1, 0)

/-- Python list indexing `l[i]`: non-negative indices read directly,
negative indices wrap from the end (`l[len(l) + i]`), and anything still
out of range raises `IndexError`, modelled as `none`. -/
def pyGet {α : Type _} (l : List α) (i : ℤ) : Option α :=
  let j : ℤ := if i < 0 then (l.length : ℤ) + i else i
  if 0 ≤ j then l.get? j.toNat else none

/-- The read `self.board[x][y]` (is_legal_move line 218) under Python
indexing semantics. -/
def pyCellRead (g : Grid) (x y : ℤ) : Option Cell :=
  match pyGet g x with
  | none => none
  | some row => pyGet row y

/-- The write `board_copy.board[x][y] = color` (is_legal_move line 222)
under Python indexing semantics. -/
def pySetCell (g : Grid) (x y : ℤ) (v : Cell) : Option Grid :=
  match pyGet g x with
  | none => none
  | some row =>
    let jx : ℤ := if x < 0 then (g.length : ℤ) + x else x
    let jy : ℤ := if y < 0 then ((row.length : ℤ)) + y else y
    if 0 ≤ jy ∧ jy < (row.length : ℤ) then
      some (g.set jx.toNat (row.set jy.toNat v))
    else none

/-- `is_legal_move` with the two raw grid accesses given Python indexing
semantics (`none` = uncaught `IndexError`); every later access goes through
`get_neighbors` / `get_group`, which index only on-board cells. -/
def isLegalMovePy (b : GoBoard) (x y : ℤ) (c : Color) : Option Bool :=
  match pyCellRead b.board x y with
  | none => none
  | some (some _) => some false
  | some none =>
    match pySetCell b.board x y (some c) with
    | none => none
    | some g1 =>
      if g1 ∈ b.previous_boards then some false
      else
        match legalScan b.size c (b.last_captured.get c) b.previous_boards g1
            (get_neighbors b.size (x, y)) with
        | some r => some r
        | none => some (has_liberties b.size (get_group b.size g1 (x, y)) g1)

/-!
## Connectivity: specification of the `get_group` flood fill
-/

theorem mem_onboardFinset {sz : ℕ} {p : Pos} :
    p ∈ onboardFinset sz ↔ is_on_board sz p.1 p.2 = true := by
  simp only [onboardFinset, Finset.mem_Icc, is_on_board, decide_eq_true_eq,
    Prod.le_def]
  omega

theorem onboardFinset_card (sz : ℕ) : (onboardFinset sz).card = sz * sz := by
  rw [onboardFinset, Finset.card_Icc_prod]
  simp [Int.card_Icc]

theorem mem_get_neighbors {sz : ℕ} {p n : Pos} (h : n ∈ get_neighbors sz p) :
    is_on_board sz n.1 n.2 = true := by
  simp only [get_neighbors, List.mem_filter] at h
  exact h.2

theorem get_neighbors_length_le (sz : ℕ) (p : Pos) :
    (get_neighbors sz p).length ≤ 4 := by
  classical
  have h := List.length_filter_le
    (fun q : Pos => is_on_board sz q.1 q.2)
    [(p.1 - 1, p.2), (p.1 + 1, p.2), (p.1, p.2 - 1), (p.1, p.2 + 1)]
  simpa [get_neighbors] using h

/-- The flood-fill loop invariant theorem: given enough fuel, the loop
absorbs its stack, stays inside the reachable set, and ends closed under
same-valued adjacency. -/
theorem getGroupLoop_spec (sz : ℕ) (g : Grid) (v : Cell) (p : Pos) :
    ∀ fuel (group : Finset Pos) (stack : List Pos),
      stack.length + 4 * ((onboardFinset sz \ group).card) ≤ fuel →
      (∀ q ∈ stack, is_on_board sz q.1 q.2 = true) →
      (∀ q ∈ group, ReachCell sz g v p q) →
      (∀ q ∈ stack, ReachCell sz g v p q) →
      (∀ q ∈ group, ∀ n ∈ get_neighbors sz q, cellAt g n = v →
        n ∈ group ∨ n ∈ stack) →
      group ⊆ getGroupLoop sz g v fuel group stack ∧
      (∀ q ∈ stack, q ∈ getGroupLoop sz g v fuel group stack) ∧
      (∀ q ∈ getGroupLoop sz g v fuel group stack, ReachCell sz g v p q) ∧
      (∀ q ∈ getGroupLoop sz g v fuel group stack,
        ∀ n ∈ get_neighbors sz q, cellAt g n = v →
          n ∈ getGroupLoop sz g v fuel group stack) := by
  intro fuel
  induction fuel with
  | zero =>
    intro group stack hfuel _ ha _ hc
    have hlen : stack.length = 0 := by omega
    have hstack : stack = [] := List.length_eq_zero.mp hlen
    subst hstack
    refine ⟨Finset.Subset.refl _, by simp, ha, ?_⟩
    intro q hq n hn hv
    rcases hc q hq n hn hv with h | h
    · exact h
    · simp at h
  | succ f ih =>
    intro group stack hfuel hob ha hb hc
    match stack with
    | [] =>
      refine ⟨Finset.Subset.refl _, by simp, ha, ?_⟩
      intro q hq n hn hv
      rcases hc q hq n hn hv with h | h
      · exact h
      · simp at h
    | q :: rest =>
      by_cases hq : q ∈ group
      · have hres : getGroupLoop sz g v (f + 1) group (q :: rest) =
            getGroupLoop sz g v f group rest := by
          simp [getGroupLoop, hq]
        rw [hres]
        have hfuel' : rest.length + 4 * ((onboardFinset sz \ group).card) ≤ f := by
          simp at hfuel; omega
        have hc' : ∀ r ∈ group, ∀ n ∈ get_neighbors sz r, cellAt g n = v →
            n ∈ group ∨ n ∈ rest := by
          intro r hr n hn hv
          rcases hc r hr n hn hv with h | h
          · exact Or.inl h
          · rcases List.mem_cons.mp h with h | h
            · exact Or.inl (h ▸ hq)
            · exact Or.inr h
        obtain ⟨c1, c2, c3, c4⟩ :=
          ih group rest hfuel' (fun r hr => hob r (List.mem_cons_of_mem _ hr))
            ha (fun r hr => hb r (List.mem_cons_of_mem _ hr)) hc'
        refine ⟨c1, ?_, c3, c4⟩
        intro r hr
        rcases List.mem_cons.mp hr with h | h
        · exact c1 (h ▸ hq)
        · exact c2 r h
      · have hres : getGroupLoop sz g v (f + 1) group (q :: rest) =
            getGroupLoop sz g v f (insert q group)
              (((get_neighbors sz q).filter
                (fun n => cellAt g n = v ∧ n ∉ insert q group)).reverse ++ rest) := by
          simp [getGroupLoop, hq]
        rw [hres]
        set group' := insert q group with hgroup'
        set ns := (get_neighbors sz q).filter
          (fun n => cellAt g n = v ∧ n ∉ group') with hns
        have hqob : is_on_board sz q.1 q.2 = true := hob q (List.mem_cons_self _ _)
        have hcard : (onboardFinset sz \ group').card
            = (onboardFinset sz \ group).card - 1 := by
          have : onboardFinset sz \ group' = (onboardFinset sz \ group).erase q := by
            rw [hgroup']
            ext r
            simp [Finset.mem_sdiff, Finset.mem_erase, and_comm, and_left_comm]
            tauto
          rw [this, Finset.card_erase_of_mem]
          exact Finset.mem_sdiff.mpr ⟨mem_onboardFinset.mpr hqob, hq⟩
        have hcardpos : 0 < (onboardFinset sz \ group).card :=
          Finset.card_pos.mpr ⟨q, Finset.mem_sdiff.mpr ⟨mem_onboardFinset.mpr hqob, hq⟩⟩
        have hnslen : ns.length ≤ 4 := by
          have h1 : ns.length ≤ (get_neighbors sz q).length :=
            List.length_filter_le _ _
          exact le_trans h1 (get_neighbors_length_le sz q)
        have hfuel' : (ns.reverse ++ rest).length
            + 4 * ((onboardFinset sz \ group').card) ≤ f := by
          rw [List.length_append, List.length_reverse, hcard]
          simp at hfuel
          omega
        have hnsmem : ∀ n ∈ ns, n ∈ get_neighbors sz q ∧ cellAt g n = v ∧ n ∉ group' := by
          intro n hn
          rw [hns] at hn
          simp only [List.mem_filter, decide_eq_true_eq] at hn
          exact ⟨hn.1, hn.2.1, hn.2.2⟩
        have hreachq : ReachCell sz g v p q := hb q (List.mem_cons_self _ _)
        have hob' : ∀ r ∈ ns.reverse ++ rest, is_on_board sz r.1 r.2 = true := by
          intro r hr
          rcases List.mem_append.mp hr with h | h
          · exact mem_get_neighbors (hnsmem r (List.mem_reverse.mp h)).1
          · exact hob r (List.mem_cons_of_mem _ h)
        have ha' : ∀ r ∈ group', ReachCell sz g v p r := by
          intro r hr
          rcases Finset.mem_insert.mp hr with h | h
          · exact h ▸ hreachq
          · exact ha r h
        have hb' : ∀ r ∈ ns.reverse ++ rest, ReachCell sz g v p r := by
          intro r hr
          rcases List.mem_append.mp hr with h | h
          · obtain ⟨hn1, hn2, _⟩ := hnsmem r (List.mem_reverse.mp h)
            exact Relation.ReflTransGen.tail hreachq ⟨hn1, hn2⟩
          · exact hb r (List.mem_cons_of_mem _ h)
        have hc' : ∀ r ∈ group', ∀ n ∈ get_neighbors sz r, cellAt g n = v →
            n ∈ group' ∨ n ∈ ns.reverse ++ rest := by
          intro r hr n hn hv
          rcases Finset.mem_insert.mp hr with h | h
          · subst h
            by_cases hng : n ∈ group'
            · exact Or.inl hng
            · refine Or.inr (List.mem_append.mpr (Or.inl ?_))
              rw [List.mem_reverse, hns]
              simp only [List.mem_filter, decide_eq_true_eq]
              exact ⟨hn, hv, hng⟩
          · rcases hc r h n hn hv with h2 | h2
            · exact Or.inl (Finset.mem_insert_of_mem h2)
            · rcases List.mem_cons.mp h2 with h3 | h3
              · exact Or.inl (h3 ▸ Finset.mem_insert_self _ _)
              · exact Or.inr (List.mem_append.mpr (Or.inr h3))
        obtain ⟨c1, c2, c3, c4⟩ :=
          ih group' (ns.reverse ++ rest) hfuel' hob' ha' hb' hc'
        have hsub : group ⊆ getGroupLoop sz g v f group' (ns.reverse ++ rest) :=
          fun r hr => c1 (Finset.mem_insert_of_mem hr)
        refine ⟨hsub, ?_, c3, c4⟩
        intro r hr
        rcases List.mem_cons.mp hr with h | h
        · exact h ▸ c1 (Finset.mem_insert_self _ _)
        · exact c2 r (List.mem_append.mpr (Or.inr h))

/-- `get_group` computes exactly the positions reachable from the seed
through on-board cells holding the seed's value. -/
theorem mem_get_group {sz : ℕ} {g : Grid} {p : Pos}
    (hp : is_on_board sz p.1 p.2 = true) (q : Pos) :
    q ∈ get_group sz g p ↔ ReachCell sz g (cellAt g p) p q := by
  have hfuel : [p].length + 4 * ((onboardFinset sz \ (∅ : Finset Pos)).card)
      ≤ floodFuel sz := by
    rw [Finset.sdiff_empty, onboardFinset_card, floodFuel]
    simp only [List.length_singleton]
    ring_nf
    omega
  obtain ⟨c1, c2, c3, c4⟩ := getGroupLoop_spec sz g (cellAt g p) p (floodFuel sz)
    ∅ [p] hfuel (by simpa using hp) (by simp)
    (by simpa using Relation.ReflTransGen.refl) (by simp)
  constructor
  · exact fun h => c3 q h
  · intro h
    induction h with
    | refl => exact c2 p (List.mem_singleton_self p)
    | tail _ hstep ih => exact c4 _ ih _ hstep.1 hstep.2

theorem self_mem_get_group {sz : ℕ} {g : Grid} {p : Pos}
    (hp : is_on_board sz p.1 p.2 = true) : p ∈ get_group sz g p :=
  (mem_get_group hp p).mpr Relation.ReflTransGen.refl

/-- Every reachable cell other than the seed holds the target value. -/
theorem reachCell_value {sz : ℕ} {g : Grid} {v : Cell} {p q : Pos}
    (h : ReachCell sz g v p q) : q = p ∨ cellAt g q = v := by
  rcases Relation.ReflTransGen.cases_tail h with h | ⟨c, _, hstep⟩
  · exact Or.inl h
  · exact Or.inr hstep.2

theorem reachCell_onboard {sz : ℕ} {g : Grid} {v : Cell} {p q : Pos}
    (h : ReachCell sz g v p q) : q = p ∨ is_on_board sz q.1 q.2 = true := by
  rcases Relation.ReflTransGen.cases_tail h with h | ⟨c, _, hstep⟩
  · exact Or.inl h
  · exact Or.inr (mem_get_neighbors hstep.1)

/-- Cells of `get_group` all hold the seed's value. -/
theorem get_group_value {sz : ℕ} {g : Grid} {p q : Pos}
    (hp : is_on_board sz p.1 p.2 = true) (hq : q ∈ get_group sz g p) :
    cellAt g q = cellAt g p := by
  rcases reachCell_value ((mem_get_group hp q).mp hq) with h | h
  · rw [h]
  · exact h

theorem get_group_onboard {sz : ℕ} {g : Grid} {p q : Pos}
    (hp : is_on_board sz p.1 p.2 = true) (hq : q ∈ get_group sz g p) :
    is_on_board sz q.1 q.2 = true := by
  rcases reachCell_onboard ((mem_get_group hp q).mp hq) with h | h
  · exact h ▸ hp
  · exact h

/-- Neighborhood is symmetric between on-board positions. -/
theorem get_neighbors_comm {sz : ℕ} {a b : Pos}
    (ha : is_on_board sz a.1 a.2 = true) (hb : is_on_board sz b.1 b.2 = true) :
    a ∈ get_neighbors sz b ↔ b ∈ get_neighbors sz a := by
  obtain ⟨ax, ay⟩ := a
  obtain ⟨bx, by'⟩ := b
  simp only [is_on_board, decide_eq_true_eq] at ha hb
  simp only [get_neighbors, List.mem_filter, List.mem_cons, List.mem_singleton,
    is_on_board, decide_eq_true_eq, List.not_mem_nil, or_false, Prod.mk.injEq]
  constructor
  · rintro ⟨h | h | h | h, -⟩ <;>
      refine ⟨by omega, by omega⟩
  · rintro ⟨h | h | h | h, -⟩ <;>
      refine ⟨by omega, by omega⟩

/-- Reachability through `v`-cells is symmetric once the seed itself holds
`v` and is on board. -/
theorem reachCell_symm {sz : ℕ} {g : Grid} {v : Cell} {p q : Pos}
    (hp : is_on_board sz p.1 p.2 = true) (hpv : cellAt g p = v)
    (h : ReachCell sz g v p q) : ReachCell sz g v q p := by
  induction h with
  | refl => exact Relation.ReflTransGen.refl
  | tail hab hstep ih =>
    rename_i b c
    have hbb : is_on_board sz b.1 b.2 = true := by
      rcases reachCell_onboard hab with h | h
      · exact h ▸ hp
      · exact h
    have hbv : cellAt g b = v := by
      rcases reachCell_value hab with h | h
      · exact h ▸ hpv
      · exact h
    have hcb : is_on_board sz c.1 c.2 = true := mem_get_neighbors hstep.1
    exact Relation.ReflTransGen.trans
      (Relation.ReflTransGen.single ⟨(get_neighbors_comm hbb hcb).mpr hstep.1, hbv⟩) ih

/-- Two members of a common component have identical groups. -/
theorem get_group_eq_of_mem {sz : ℕ} {g : Grid} {p q : Pos}
    (hp : is_on_board sz p.1 p.2 = true) (hq : q ∈ get_group sz g p) :
    get_group sz g q = get_group sz g p := by
  have hqob : is_on_board sz q.1 q.2 = true := get_group_onboard hp hq
  have hqv : cellAt g q = cellAt g p := get_group_value hp hq
  have hpq : ReachCell sz g (cellAt g p) p q := (mem_get_group hp q).mp hq
  have hqp : ReachCell sz g (cellAt g p) q p := reachCell_symm hp rfl hpq
  ext r
  rw [mem_get_group hp r, mem_get_group hqob r, hqv]
  exact ⟨fun h => Relation.ReflTransGen.trans hpq h,
    fun h => Relation.ReflTransGen.trans hqp h⟩

/-- Adjacent same-valued on-board cells belong to each other's groups. -/
theorem mem_get_group_of_adj {sz : ℕ} {g : Grid} {p n : Pos}
    (hp : is_on_board sz p.1 p.2 = true) (hn : n ∈ get_neighbors sz p)
    (hv : cellAt g n = cellAt g p) : n ∈ get_group sz g p :=
  (mem_get_group hp n).mpr (Relation.ReflTransGen.single ⟨hn, hv⟩)

theorem has_liberties_iff {sz : ℕ} {S : Finset Pos} {g : Grid} :
    has_liberties sz S g = true ↔
      ∃ p ∈ S, ∃ n ∈ get_neighbors sz p, cellAt g n = none := by
  simp [has_liberties]

/-!
## Grid update lemmas
-/

theorem wfGrid_setCell {sz : ℕ} {g : Grid} {p : Pos} {v : Cell}
    (h : wfGrid sz g) : wfGrid sz (setCell g p v) := by
  obtain ⟨h1, h2⟩ := h
  refine ⟨by simp [setCell, h1], ?_⟩
  intro row hrow
  by_cases hi : p.1.toNat < g.length
  · rw [setCell] at hrow
    rcases List.mem_or_eq_of_mem_set hrow with h | h
    · exact h2 row h
    · rcases h3 : g.get? p.1.toNat with - | r
      · rw [List.get?_eq_none] at h3
        omega
      · rw [h3] at h
        subst h
        simp only [Option.getD_some, List.length_set]
        exact h2 r (List.get?_mem h3)
  · rw [setCell, List.set_eq_of_length_le (le_of_not_lt hi)] at hrow
    exact h2 row hrow

theorem length_mapIdx' (l : List α) (f : ℕ → α → β) :
    (l.mapIdx f).length = l.length := by
  simp [List.mapIdx_eq_enum_map]

theorem get?_mapIdx' (l : List α) (f : ℕ → α → β) (i : ℕ) :
    (l.mapIdx f).get? i = (l.get? i).map (f i) := by
  by_cases h : i < l.length
  · have h' : i < (l.mapIdx f).length := by rw [length_mapIdx']; exact h
    rw [List.get?_eq_get h, List.get?_eq_get h']
    simp [List.get_mapIdx]
  · have e1 : l.get? i = none := List.get?_eq_none.mpr (le_of_not_lt h)
    have e2 : (l.mapIdx f).get? i = none := by
      refine List.get?_eq_none.mpr ?_
      rw [length_mapIdx']
      exact le_of_not_lt h
    rw [e1, e2]
    rfl

theorem cellAt_setCell {sz : ℕ} {g : Grid} {p q : Pos} {v : Cell}
    (hwf : wfGrid sz g) (hp : is_on_board sz p.1 p.2 = true)
    (hq : is_on_board sz q.1 q.2 = true) :
    cellAt (setCell g p v) q = if q = p then v else cellAt g q := by
  obtain ⟨h1, h2⟩ := hwf
  simp only [is_on_board, decide_eq_true_eq] at hp hq
  have hpx : p.1.toNat < g.length := by omega
  by_cases hqp : q = p
  · subst hqp
    simp only [if_pos rfl, cellAt, setCell]
    rw [List.get?_set_eq_of_lt _ hpx]
    rcases h3 : g.get? q.1.toNat with - | r
    · rw [List.get?_eq_none] at h3
      omega
    · simp only [h3, Option.getD_some]
      have hrlen : r.length = sz := h2 r (List.get?_mem h3)
      have hqy : q.2.toNat < r.length := by omega
      rw [List.get?_set_eq_of_lt _ hqy]
      simp
  · rw [if_neg hqp]
    have hne : q.1.toNat ≠ p.1.toNat ∨ (q.1.toNat = p.1.toNat ∧ q.2.toNat ≠ p.2.toNat) := by
      by_cases hx : q.1.toNat = p.1.toNat
      · refine Or.inr ⟨hx, ?_⟩
        intro hy
        exact hqp (Prod.ext (by omega) (by omega))
      · exact Or.inl hx
    rcases hne with hx | ⟨hx, hy⟩
    · simp only [cellAt, setCell]
      rw [List.get?_set_ne _ _ (fun h => hx h.symm)]
    · simp only [cellAt, setCell, hx]
      rw [List.get?_set_eq_of_lt _ hpx]
      rcases h3 : g.get? p.1.toNat with - | r
      · rw [List.get?_eq_none] at h3
        omega
      · simp only [Option.getD_some]
        rw [List.get?_set_ne _ _ (fun h => hy h.symm)]

theorem wfGrid_clearCells {sz : ℕ} {g : Grid} {S : Finset Pos}
    (h : wfGrid sz g) : wfGrid sz (clearCells S g) := by
  obtain ⟨h1, h2⟩ := h
  constructor
  · rw [clearCells, length_mapIdx', h1]
  · intro row hrow
    rw [clearCells] at hrow
    obtain ⟨i, hi⟩ := List.mem_iff_get?.mp hrow
    rw [get?_mapIdx'] at hi
    rcases h3 : g.get? i with - | r
    · rw [h3] at hi
      exact absurd hi (by simp)
    · rw [h3] at hi
      simp only [Option.map_some', Option.some_inj] at hi
      rw [← hi, length_mapIdx']
      exact h2 r (List.get?_mem h3)

theorem cellAt_clearCells {sz : ℕ} {g : Grid} {S : Finset Pos} {q : Pos}
    (hwf : wfGrid sz g) (hq : is_on_board sz q.1 q.2 = true) :
    cellAt (clearCells S g) q = if q ∈ S then none else cellAt g q := by
  obtain ⟨h1, h2⟩ := hwf
  have hq' := hq
  simp only [is_on_board, decide_eq_true_eq] at hq'
  have hqx : q.1.toNat < g.length := by omega
  simp only [cellAt, clearCells, get?_mapIdx']
  rcases h3 : g.get? q.1.toNat with - | r
  · rw [List.get?_eq_none] at h3
    omega
  · simp only [Option.map_some', Option.getD_some, get?_mapIdx']
    have hrlen : r.length = sz := h2 r (List.get?_mem h3)
    have hqy : q.2.toNat < r.length := by omega
    rcases h4 : r.get? q.2.toNat with - | c
    · rw [List.get?_eq_none] at h4
      omega
    · simp only [Option.map_some', Option.getD_some]
      have hxz : ((q.1.toNat : ℤ), (q.2.toNat : ℤ)) = q := by
        obtain ⟨qx, qy⟩ := q
        simp only [Prod.mk.injEq]
        exact ⟨by omega, by omega⟩
      rw [hxz]

/-!
## The capture scan of `play_move` / `play_actual_move`
-/

theorem opp_of_ne {nc c : Color} (h : nc ≠ c) : nc = opponent_color c := by
  cases nc <;> cases c <;> first | rfl | exact absurd rfl h

theorem opponent_color_ne (c : Color) : opponent_color c ≠ c := by
  cases c <;> simp [opponent_color]

/-- Liberties only grow when cells are emptied. -/
theorem has_liberties_mono {sz : ℕ} {S : Finset Pos} {h h' : Grid}
    (hrel : ∀ q, is_on_board sz q.1 q.2 = true →
      cellAt h' q = cellAt h q ∨ cellAt h' q = none)
    (hlib : has_liberties sz S h = true) : has_liberties sz S h' = true := by
  rw [has_liberties_iff] at hlib ⊢
  obtain ⟨q, hq, n, hn, hnone⟩ := hlib
  refine ⟨q, hq, n, hn, ?_⟩
  rcases hrel n (mem_get_neighbors hn) with h | h
  · rw [h, hnone]
  · exact h

/-- Clearing one whole component leaves every other component (of any seed
outside it) untouched. -/
theorem get_group_clearCells {sz : ℕ} {h : Grid} {n q : Pos}
    (hwf : wfGrid sz h) (hn : is_on_board sz n.1 n.2 = true)
    (hq : is_on_board sz q.1 q.2 = true)
    (hv : cellAt h q ≠ none)
    (hqn : q ∉ get_group sz h n) :
    get_group sz (clearCells (get_group sz h n) h) q = get_group sz h q := by
  set G := get_group sz h n with hG
  have hcellq : cellAt (clearCells G h) q = cellAt h q := by
    rw [cellAt_clearCells hwf hq, if_neg hqn]
  have hdisj : ∀ x, x ∈ get_group sz h q → x ∉ G := by
    intro x hx hxG
    have e1 := get_group_eq_of_mem hq hx
    have e2 := get_group_eq_of_mem hn hxG
    refine hqn ?_
    rw [hG, ← e2, e1]
    exact self_mem_get_group hq
  ext r
  rw [mem_get_group hq r, mem_get_group hq r, hcellq]
  constructor
  · -- a path in the cleared grid is a path in the original grid
    intro hpath
    induction hpath with
    | refl => exact Relation.ReflTransGen.refl
    | tail hab hstep ih =>
      rename_i b r'
      have hrob : is_on_board sz r'.1 r'.2 = true := mem_get_neighbors hstep.1
      have hcell : cellAt (clearCells G h) r' = cellAt h r' ∨
          cellAt (clearCells G h) r' = none := by
        rw [cellAt_clearCells hwf hrob]
        by_cases hrG : r' ∈ G
        · exact Or.inr (if_pos hrG)
        · exact Or.inl (if_neg hrG)
      rcases hcell with hc | hc
      · exact Relation.ReflTransGen.tail ih ⟨hstep.1, hc ▸ hstep.2⟩
      · rw [hstep.2] at hc
        exact absurd hc hv
  · -- a path in the original grid avoids the cleared component
    intro hpath
    have hmem : ∀ x, ReachCell sz h (cellAt h q) q x → x ∈ get_group sz h q :=
      fun x hx => (mem_get_group hq x).mpr hx
    induction hpath with
    | refl => exact Relation.ReflTransGen.refl
    | tail hab hstep ih =>
      rename_i b r'
      have hrob : is_on_board sz r'.1 r'.2 = true := mem_get_neighbors hstep.1
      have hrmem : r' ∈ get_group sz h q :=
        hmem r' (Relation.ReflTransGen.tail hab hstep)
      have hcell : cellAt (clearCells G h) r' = cellAt h r' := by
        rw [cellAt_clearCells hwf hrob, if_neg (hdisj r' hrmem)]
      exact Relation.ReflTransGen.tail ih ⟨hstep.1, hcell ▸ hstep.2⟩

theorem gridStepRel_refl (sz : ℕ) (c : Color) (h : Grid) : GridStepRel sz c h h :=
  fun _ _ => Or.inl rfl

theorem gridStepRel_trans {sz : ℕ} {c : Color} {h1 h2 h3 : Grid}
    (a : GridStepRel sz c h1 h2) (b : GridStepRel sz c h2 h3) :
    GridStepRel sz c h1 h3 := by
  intro q hq
  rcases b q hq with hb | hb
  · rcases a q hq with ha | ha
    · exact Or.inl (hb.trans ha)
    · exact Or.inr ⟨hb.trans ha.1, ha.2⟩
  · rcases a q hq with ha | ha
    · exact Or.inr ⟨hb.1, ha ▸ hb.2⟩
    · exact Or.inr ⟨hb.1, ha.2⟩

theorem gridStepRel_none {sz : ℕ} {c : Color} {h h' : Grid} {q : Pos}
    (st : GridStepRel sz c h h') (hq : is_on_board sz q.1 q.2 = true)
    (hn : cellAt h q = none) : cellAt h' q = none := by
  rcases st q hq with h2 | h2
  · exact h2.trans hn
  · exact h2.1

theorem gridStepRel_weaken {sz : ℕ} {c : Color} {h h' : Grid}
    (st : GridStepRel sz c h h') :
    ∀ q, is_on_board sz q.1 q.2 = true →
      cellAt h' q = cellAt h q ∨ cellAt h' q = none := by
  intro q hq
  rcases st q hq with h2 | h2
  · exact Or.inl h2
  · exact Or.inr h2.1

theorem captureStep_spec {sz : ℕ} {c : Color} {p : Pos} {g1 : Grid}
    {cap0 : Captured} {lc0 : LastCaptured} {tl : Bool} {st : CapState} {n : Pos}
    (hn : n ∈ get_neighbors sz p)
    (hinv : ScanInv sz c p g1 cap0 lc0 st) :
    ScanInv sz c p g1 cap0 lc0 (captureStep sz c tl st n) ∧
    GridStepRel sz c st.grid (captureStep sz c tl st n).grid := by
  obtain ⟨hwf, hg1, hstab, hany, hnone⟩ := hinv
  have hnob : is_on_board sz n.1 n.2 = true := mem_get_neighbors hn
  rcases hcell : cellAt st.grid n with - | nc
  · rw [show captureStep sz c tl st n = st by simp [captureStep, hcell]]
    exact ⟨⟨hwf, hg1, hstab, hany, hnone⟩, gridStepRel_refl sz c st.grid⟩
  · by_cases hc : nc = c
    · rw [show captureStep sz c tl st n = st by simp [captureStep, hcell, hc]]
      exact ⟨⟨hwf, hg1, hstab, hany, hnone⟩, gridStepRel_refl sz c st.grid⟩
    · have hopp : nc = opponent_color c := opp_of_ne hc
      subst hopp
      by_cases hlib : has_liberties sz (get_group sz st.grid n) st.grid = true
      · rw [show captureStep sz c tl st n = st by simp [captureStep, hcell, hc, hlib]]
        exact ⟨⟨hwf, hg1, hstab, hany, hnone⟩, gridStepRel_refl sz c st.grid⟩
      · have hgrid2 : (captureStep sz c tl st n).grid =
            clearCells (get_group sz st.grid n) st.grid := by
          simp only [captureStep, hcell]
          rw [if_neg hc, if_neg hlib]
        have hany2 : (captureStep sz c tl st n).any = true := by
          simp only [captureStep, hcell]
          rw [if_neg hc, if_neg hlib]
        set grp := get_group sz st.grid n with hgrp
        have hgrpopp : ∀ q ∈ grp, cellAt st.grid q = some (opponent_color c) :=
          fun q hq => (get_group_value hnob hq).trans hcell
        have hstep : GridStepRel sz c st.grid (captureStep sz c tl st n).grid := by
          rw [hgrid2]
          intro q hq
          rw [cellAt_clearCells hwf hq]
          by_cases hqg : q ∈ grp
          · exact Or.inr ⟨if_pos hqg, hgrpopp q hqg⟩
          · exact Or.inl (if_neg hqg)
        refine ⟨⟨?_, gridStepRel_trans hg1 hstep, ?_, ?_, ?_⟩, hstep⟩
        · rw [hgrid2]
          exact wfGrid_clearCells hwf
        · intro q hq hqopp
          rw [hgrid2] at hqopp ⊢
          have hqg : q ∉ grp := by
            intro hmem
            rw [cellAt_clearCells hwf hq, if_pos hmem] at hqopp
            exact Option.noConfusion hqopp
          have hqcell : cellAt st.grid q = some (opponent_color c) := by
            rw [cellAt_clearCells hwf hq, if_neg hqg] at hqopp
            exact hqopp
          have e1 : get_group sz (clearCells grp st.grid) q
              = get_group sz st.grid q := by
            rw [hgrp]
            exact get_group_clearCells hwf hnob hq (by rw [hqcell]; simp) hqg
          rw [e1]
          exact hstab q hq hqcell
        · intro hdis
          have hcellnone : cellAt (captureStep sz c tl st n).grid n = none := by
            rw [hgrid2, cellAt_clearCells hwf hnob]
            rw [hgrp]
            rw [if_pos (self_mem_get_group hnob)]
          have hg1n : cellAt g1 n = some (opponent_color c) := by
            rcases hg1 n hnob with h2 | h2
            · rw [← h2]
              exact hcell
            · exact h2.2
          exact ⟨n, hn, hcellnone, hg1n⟩
        · intro h
          rw [hany2] at h
          exact Bool.noConfusion h

theorem captureScanFold_spec {sz : ℕ} {c : Color} {p : Pos} {g1 : Grid}
    {cap0 : Captured} {lc0 : LastCaptured} {tl : Bool} :
    ∀ (l : List Pos) (st : CapState), (∀ n ∈ l, n ∈ get_neighbors sz p) →
      ScanInv sz c p g1 cap0 lc0 st →
      ScanInv sz c p g1 cap0 lc0 (l.foldl (captureStep sz c tl) st) ∧
      GridStepRel sz c st.grid (l.foldl (captureStep sz c tl) st).grid ∧
      (∀ n ∈ l, cellAt (l.foldl (captureStep sz c tl) st).grid n
          = some (opponent_color c) →
        has_liberties sz
          (get_group sz (l.foldl (captureStep sz c tl) st).grid n)
          (l.foldl (captureStep sz c tl) st).grid = true) := by
  intro l
  induction l with
  | nil =>
    intro st _ hinv
    exact ⟨hinv, gridStepRel_refl sz c st.grid, by simp⟩
  | cons n rest ih =>
    intro st hmem hinv
    have hn : n ∈ get_neighbors sz p := hmem n (List.mem_cons_self _ _)
    obtain ⟨hinv', hstep⟩ := captureStep_spec hn hinv
    have hfold : (n :: rest).foldl (captureStep sz c tl) st
        = rest.foldl (captureStep sz c tl) (captureStep sz c tl st n) := rfl
    rw [hfold]
    obtain ⟨hinv'', hstep'', hsurv⟩ :=
      ih (captureStep sz c tl st n) (fun m hm => hmem m (List.mem_cons_of_mem _ hm)) hinv'
    refine ⟨hinv'', gridStepRel_trans hstep hstep'', ?_⟩
    intro m hm hopp
    rcases List.mem_cons.mp hm with hmn | hmrest
    · -- the head neighbor: analyse what its processing step did
      subst hmn
      have hmob : is_on_board sz m.1 m.2 = true := mem_get_neighbors hn
      set stN := captureStep sz c tl st m with hstN
      set F := rest.foldl (captureStep sz c tl) stN with hF
      -- the cell survived to the end, so it survived the head step too
      have hcellN : cellAt stN.grid m = some (opponent_color c) := by
        rcases hstep'' m hmob with h2 | h2
        · rw [← h2]
          exact hopp
        · rw [hopp] at h2
          exact absurd h2.1 (by simp)
      -- so the head step did not capture it; it was opposing with liberties
      rcases hcellst : cellAt st.grid m with - | nc
      · rcases hstep m hmob with h2 | h2
        · rw [hcellst] at h2
          rw [h2] at hcellN
          exact absurd hcellN (by simp)
        · rw [hcellst] at h2
          exact absurd h2.2 (by simp)
      · by_cases hcc : nc = c
        · subst hcc
          rcases hstep m hmob with h2 | h2
          · rw [hcellst] at h2
            rw [h2] at hcellN
            have := Option.some_inj.mp hcellN
            exact absurd this.symm (opponent_color_ne nc)
          · rw [hcellst] at h2
            have := Option.some_inj.mp h2.2
            exact absurd this.symm (opponent_color_ne nc)
        · have hopp2 : nc = opponent_color c := opp_of_ne hcc
          subst hopp2
          by_cases hlib : has_liberties sz (get_group sz st.grid m) st.grid = true
          · -- skipped with liberties; component equality transfers them
            obtain ⟨hwfF, hg1F, hstabF, -, -⟩ := hinv''
            obtain ⟨hwfS, hg1S, hstabS, -, -⟩ := hinv
            have egrpF : get_group sz F.grid m = get_group sz g1 m :=
              hstabF m hmob hopp
            have egrpS : get_group sz st.grid m = get_group sz g1 m :=
              hstabS m hmob hcellst
            rw [egrpF, ← egrpS]
            refine has_liberties_mono ?_ hlib
            have : GridStepRel sz c st.grid F.grid :=
              gridStepRel_trans hstep hstep''
            exact gridStepRel_weaken this
          · -- captured at the head step: its cell would be empty, contradiction
            have : cellAt stN.grid m = none := by
              rw [hstN]
              have hgrid2 : (captureStep sz c tl st m).grid =
                  clearCells (get_group sz st.grid m) st.grid := by
                simp only [captureStep, hcellst]
                rw [if_neg hcc, if_neg hlib]
              rw [hgrid2, cellAt_clearCells hinv.1 hmob,
                if_pos (self_mem_get_group hmob)]
            rw [this] at hcellN
            exact absurd hcellN (by simp)
    · exact hsurv m hmrest hopp

/-- Groups agree across two grids when cells carrying the seed's value
transfer forwards, and members of the second grid's group carried that value
already in the first grid. -/
theorem get_group_eq_cells {sz : ℕ} {g g' : Grid} {q : Pos}
    (hq : is_on_board sz q.1 q.2 = true)
    (hqq : cellAt g' q = cellAt g q)
    (h1 : ∀ r, is_on_board sz r.1 r.2 = true →
      cellAt g r = cellAt g q → cellAt g' r = cellAt g q)
    (h2 : ∀ r, is_on_board sz r.1 r.2 = true → r ∈ get_group sz g' q →
      cellAt g r = cellAt g q) :
    get_group sz g q = get_group sz g' q := by
  ext x
  rw [mem_get_group hq x, mem_get_group hq x, hqq]
  constructor
  · intro hpath
    induction hpath with
    | refl => exact Relation.ReflTransGen.refl
    | tail hab hstep ih =>
      rename_i b r
      have hrob : is_on_board sz r.1 r.2 = true := mem_get_neighbors hstep.1
      exact Relation.ReflTransGen.tail ih ⟨hstep.1, h1 r hrob hstep.2⟩
  · intro hpath
    have hmem : ∀ x, ReachCell sz g' (cellAt g q) q x → x ∈ get_group sz g' q := by
      intro x hx
      rw [mem_get_group hq x, hqq]
      exact hx
    induction hpath with
    | refl => exact Relation.ReflTransGen.refl
    | tail hab hstep ih =>
      rename_i b r
      have hrob : is_on_board sz r.1 r.2 = true := mem_get_neighbors hstep.1
      have hrmem : r ∈ get_group sz g' q :=
        hmem r (Relation.ReflTransGen.tail hab hstep)
      exact Relation.ReflTransGen.tail ih ⟨hstep.1, h2 r hrob hrmem⟩

theorem captureScan_eq_foldl (sz : ℕ) (c : Color) (tl : Bool) (g1 : Grid)
    (cap : Captured) (lc : LastCaptured) (p : Pos) :
    captureScan sz c tl g1 cap lc p =
      (get_neighbors sz p).foldl (captureStep sz c tl)
        ⟨g1, cap, lc, false⟩ := rfl

theorem scanInv_init (sz : ℕ) (c : Color) (p : Pos) (g1 : Grid)
    (cap : Captured) (lc : LastCaptured) (hwf1 : wfGrid sz g1) :
    ScanInv sz c p g1 cap lc ⟨g1, cap, lc, false⟩ := by
  refine ⟨hwf1, gridStepRel_refl sz c g1, fun q _ _ => rfl, ?_, fun _ => rfl⟩
  intro h
  exact Bool.noConfusion h

/-- The central preservation lemma: if every group of the pre-move board has
a liberty and the scanned move is accepted (a capture happened, or the
placed group has a liberty), then every group of the post-scan board has a
liberty. -/
theorem scan_preserves_liberty {sz : ℕ} {c : Color} {tl : Bool} {p : Pos}
    {g : Grid} {cap : Captured} {lc : LastCaptured}
    (hwf : wfGrid sz g)
    (hpob : is_on_board sz p.1 p.2 = true)
    (hpempty : cellAt g p = none)
    (hinv : LibertyInv sz g)
    (hacc : ¬((captureScan sz c tl (setCell g p (some c)) cap lc p).any = false ∧
      has_liberties sz
        (get_group sz (captureScan sz c tl (setCell g p (some c)) cap lc p).grid p)
        (captureScan sz c tl (setCell g p (some c)) cap lc p).grid = false)) :
    LibertyInv sz (captureScan sz c tl (setCell g p (some c)) cap lc p).grid := by
  set g1 := setCell g p (some c) with hg1def
  set F := captureScan sz c tl g1 cap lc p with hFdef
  have hwf1 : wfGrid sz g1 := wfGrid_setCell hwf
  have hcellg1 : ∀ r, is_on_board sz r.1 r.2 = true →
      cellAt g1 r = if r = p then some c else cellAt g r :=
    fun r hr => cellAt_setCell hwf hpob hr
  have hcellg1p : cellAt g1 p = some c := by rw [hcellg1 p hpob, if_pos rfl]
  obtain ⟨hScan, hStepAll, hSurv⟩ :=
    @captureScanFold_spec sz c p g1 cap lc tl (get_neighbors sz p)
      ⟨g1, cap, lc, false⟩
      (fun n hn => hn) (scanInv_init sz c p g1 cap lc hwf1)
  rw [← captureScan_eq_foldl, ← hFdef] at hScan hStepAll hSurv
  obtain ⟨hwfF, hg1F, hstabF, hanyF, hnoneF⟩ := hScan
  have hcellFp : cellAt F.grid p = some c := by
    rcases hg1F p hpob with h2 | h2
    · rw [h2, hcellg1p]
    · rw [hcellg1p] at h2
      exact absurd (Option.some_inj.mp h2.2) (fun h => opponent_color_ne c h.symm)
  intro q hqmem hqcell
  have hqob : is_on_board sz q.1 q.2 = true := mem_onboardFinset.mp hqmem
  rcases hd : cellAt F.grid q with - | d
  · exact absurd hd hqcell
  rcases hdc : decide (d = c) with - | -
  · -- an opposing survivor
    have hdne : d ≠ c := by simpa using hdc
    have hdopp : d = opponent_color c := opp_of_ne hdne
    subst hdopp
    have hg1q : cellAt g1 q = some (opponent_color c) := by
      rcases hg1F q hqob with h2 | h2
      · rw [← h2, hd]
      · rw [hd] at h2
        exact absurd h2.1 (by simp)
    have hqnep : q ≠ p := by
      intro h
      rw [h, hcellg1p] at hg1q
      exact opponent_color_ne c (Option.some_inj.mp hg1q).symm
    have hgq : cellAt g q = some (opponent_color c) := by
      rw [hcellg1 q hqob, if_neg hqnep] at hg1q
      exact hg1q
    -- the group of q in g equals the group in g1
    have hgrp01 : get_group sz g q = get_group sz g1 q := by
      refine get_group_eq_cells hqob (by rw [hg1q, hgq]) ?_ ?_
      · intro r hrob hr
        rw [hgq] at hr
        have hrnep : r ≠ p := by
          intro h
          rw [h, hpempty] at hr
          exact Option.noConfusion hr
        rw [hcellg1 r hrob, if_neg hrnep, hr, hgq]
      · intro r hrob hrmem
        have hval : cellAt g1 r = cellAt g1 q := get_group_value hqob hrmem
        have hrnep : r ≠ p := by
          intro h
          rw [h, hcellg1p] at hval
          rw [hg1q] at hval
          exact opponent_color_ne c (Option.some_inj.mp hval).symm
        rw [hgq, ← hg1q, ← hval, hcellg1 r hrob, if_neg hrnep]
    have hgrp1F : get_group sz F.grid q = get_group sz g1 q :=
      hstabF q hqob hd
    by_cases hlib1 : has_liberties sz (get_group sz g1 q) g1 = true
    · rw [hgrp1F]
      exact has_liberties_mono (gridStepRel_weaken hg1F) hlib1
    · -- the placement stole the last liberty: some member is adjacent to p,
      -- and the scan guarantees surviving adjacent groups keep a liberty
      have hlib0 : has_liberties sz (get_group sz g q) g = true :=
        hinv q hqmem (by rw [hgq]; simp)
      rw [has_liberties_iff] at hlib0
      obtain ⟨r, hrmem, m, hm, hmnone⟩ := hlib0
      have hrob : is_on_board sz r.1 r.2 = true := get_group_onboard hqob hrmem
      have hmp : m = p := by
        by_contra hmp
        refine hlib1 ?_
        rw [← hgrp01, has_liberties_iff]
        refine ⟨r, hrmem, m, hm, ?_⟩
        rw [hcellg1 m (mem_get_neighbors hm), if_neg hmp, hmnone]
      rw [hmp] at hm
      have hrnb : r ∈ get_neighbors sz p :=
        (get_neighbors_comm hpob hrob).mp hm
      -- r survived: it lies in q's surviving component
      have hrmemF : r ∈ get_group sz F.grid q := by
        rw [hgrp1F, ← hgrp01]
        exact hrmem
      have hrcellF : cellAt F.grid r = some (opponent_color c) := by
        have := get_group_value hqob hrmemF
        rw [this, hd]
      have hlibr : has_liberties sz (get_group sz F.grid r) F.grid = true :=
        hSurv r hrnb hrcellF
      rw [get_group_eq_of_mem hqob hrmemF] at hlibr
      exact hlibr
  · -- a friendly stone
    have hdc0 : d = c := by simpa using hdc
    have hdc' : c = d := hdc0.symm
    subst hdc'
    by_cases hpmem : p ∈ get_group sz F.grid q
    · rw [← get_group_eq_of_mem hqob hpmem]
      rcases hany : F.any with - | -
      · -- no capture: the acceptance test passed on the placed group
        have h2 : ¬ has_liberties sz (get_group sz F.grid p) F.grid = false :=
          fun hfalse => hacc ⟨hany, hfalse⟩
        simpa using h2
      · -- a capture opened an adjacent empty cell next to p
        obtain ⟨n, hn, hnnone, -⟩ := hanyF hany
        rw [has_liberties_iff]
        exact ⟨p, self_mem_get_group hpob, n, hn, hnnone⟩
    · -- a friendly group not containing p: its group and liberty carry over
      have hgF : cellAt g1 q = some c := by
        rcases hg1F q hqob with h2 | h2
        · rw [← h2, hd]
        · rw [hd] at h2
          exact absurd h2.1 (by simp)
      have hqnep : q ≠ p ∨ q = p := (ne_or_eq q p)
      have hgq : cellAt g q = some c ∨ q = p := by
        rcases hqnep with h | h
        · left
          rw [hcellg1 q hqob, if_neg h] at hgF
          exact hgF
        · right
          exact h
      rcases hgq with hgq | hqp
      · -- q ≠ p case
        have hqnep2 : q ≠ p := by
          intro h
          rw [h, hpempty] at hgq
          exact Option.noConfusion hgq
        -- the F-group of q equals the g-group of q
        have hgrpF0 : get_group sz g q = get_group sz F.grid q := by
          refine get_group_eq_cells hqob (by rw [hd, hgq]) ?_ ?_
          · intro r hrob hr
            rw [hgq] at hr
            have hrnep : r ≠ p := by
              intro h
              rw [h, hpempty] at hr
              exact Option.noConfusion hr
            have hr1 : cellAt g1 r = some c := by
              rw [hcellg1 r hrob, if_neg hrnep, hr]
            rcases hg1F r hrob with h2 | h2
            · rw [h2, hr1, hgq]
            · rw [hr1] at h2
              exact absurd (Option.some_inj.mp h2.2)
                (fun h => opponent_color_ne c h.symm)
          · intro r hrob hrmem
            have hval : cellAt F.grid r = cellAt F.grid q := get_group_value hqob hrmem
            rw [hd] at hval
            have hrnep : r ≠ p := by
              intro h
              rw [h] at hrmem
              exact hpmem hrmem
            have hr1 : cellAt g1 r = some c := by
              rcases hg1F r hrob with h2 | h2
              · rw [← h2, hval]
              · rw [hval] at h2
                exact absurd h2.1 (by simp)
            rw [hcellg1 r hrob, if_neg hrnep] at hr1
            rw [hgq]
            exact hr1
        have hlib0 : has_liberties sz (get_group sz g q) g = true :=
          hinv q hqmem (by rw [hgq]; simp)
        rw [has_liberties_iff] at hlib0
        obtain ⟨r, hrmem, m, hm, hmnone⟩ := hlib0
        have hrob : is_on_board sz r.1 r.2 = true := get_group_onboard hqob hrmem
        have hmp : m ≠ p := by
          intro h
          subst h
          -- then p would join the friendly group, contradicting hpmem
          have hrmemF : r ∈ get_group sz F.grid q := hgrpF0 ▸ hrmem
          have hrcellF : cellAt F.grid r = some c := by
            have := get_group_value hqob hrmemF
            rw [this, hd]
          have hpr : m ∈ get_neighbors sz r := hm
          have : m ∈ get_group sz F.grid r :=
            mem_get_group_of_adj hrob hpr (by rw [hcellFp, hrcellF])
          rw [get_group_eq_of_mem hqob hrmemF] at this
          exact hpmem this
        have hmg1 : cellAt g1 m = none := by
          rw [hcellg1 m (mem_get_neighbors hm), if_neg hmp, hmnone]
        have hmF : cellAt F.grid m = none :=
          gridStepRel_none hg1F (mem_get_neighbors hm) hmg1
        rw [← hgrpF0, has_liberties_iff]
        exact ⟨r, hrmem, m, hm, hmF⟩
      · -- q = p but p ∉ its own group: impossible
        subst hqp
        exact absurd (self_mem_get_group hqob) hpmem

theorem play_move_pos {b : GoBoard} {x y : ℤ} {c : Color}
    (hg : is_on_board b.size x y = true ∧ cellAt b.board (x, y) = none) :
    play_move b x y c =
      (if (captureScan b.size c false (setCell b.board (x, y) (some c))
            b.captured b.last_captured (x, y)).any = false ∧
          has_liberties b.size
            (get_group b.size
              (captureScan b.size c false (setCell b.board (x, y) (some c))
                b.captured b.last_captured (x, y)).grid (x, y))
            (captureScan b.size c false (setCell b.board (x, y) (some c))
              b.captured b.last_captured (x, y)).grid = false
       then (false, b)
       else (true, { b with
          board := (captureScan b.size c false (setCell b.board (x, y) (some c))
            b.captured b.last_captured (x, y)).grid,
          captured := (captureScan b.size c false (setCell b.board (x, y) (some c))
            b.captured b.last_captured (x, y)).captured })) := by
  rw [play_move, if_neg (not_not_intro hg)]

theorem play_actual_move_pos {b : GoBoard} {x y : ℤ} {c : Color}
    (hg : is_on_board b.size x y = true ∧ cellAt b.board (x, y) = none) :
    play_actual_move b x y c =
      (if (captureScan b.size c true (setCell b.board (x, y) (some c))
            b.captured b.last_captured (x, y)).any = false ∧
          has_liberties b.size
            (get_group b.size
              (captureScan b.size c true (setCell b.board (x, y) (some c))
                b.captured b.last_captured (x, y)).grid (x, y))
            (captureScan b.size c true (setCell b.board (x, y) (some c))
              b.captured b.last_captured (x, y)).grid = false
       then (false, b)
       else (true, { b with
          board := (captureScan b.size c true (setCell b.board (x, y) (some c))
            b.captured b.last_captured (x, y)).grid,
          captured := (captureScan b.size c true (setCell b.board (x, y) (some c))
            b.captured b.last_captured (x, y)).captured,
          last_captured := (captureScan b.size c true (setCell b.board (x, y) (some c))
            b.captured b.last_captured (x, y)).lastCap })) := by
  rw [play_actual_move, if_neg (not_not_intro hg)]

theorem play_move_neg {b : GoBoard} {x y : ℤ} {c : Color}
    (hg : ¬ (is_on_board b.size x y = true ∧ cellAt b.board (x, y) = none)) :
    play_move b x y c = (false, b) := by
  rw [play_move, if_pos]
  exact hg

theorem play_actual_move_neg {b : GoBoard} {x y : ℤ} {c : Color}
    (hg : ¬ (is_on_board b.size x y = true ∧ cellAt b.board (x, y) = none)) :
    play_actual_move b x y c = (false, b) := by
  rw [play_actual_move, if_pos]
  exact hg

/-- The size never changes, and a rejected move returns the caller's board:
`play_move` mutates only when it returns `True`. -/
theorem play_move_false_unchanged (b : GoBoard) (x y : ℤ) (c : Color)
    (h : (play_move b x y c).1 = false) : (play_move b x y c).2 = b := by
  by_cases hg : is_on_board b.size x y = true ∧ cellAt b.board (x, y) = none
  · rw [play_move_pos hg] at h ⊢
    by_cases hrej : (captureScan b.size c false (setCell b.board (x, y) (some c))
        b.captured b.last_captured (x, y)).any = false ∧
        has_liberties b.size
          (get_group b.size (captureScan b.size c false
            (setCell b.board (x, y) (some c)) b.captured b.last_captured (x, y)).grid
            (x, y))
          (captureScan b.size c false (setCell b.board (x, y) (some c))
            b.captured b.last_captured (x, y)).grid = false
    · rw [if_pos hrej]
    · rw [if_neg hrej] at h
      exact Bool.noConfusion h
  · rw [play_move_neg hg]

theorem play_actual_move_false_unchanged (b : GoBoard) (x y : ℤ) (c : Color)
    (h : (play_actual_move b x y c).1 = false) : (play_actual_move b x y c).2 = b := by
  by_cases hg : is_on_board b.size x y = true ∧ cellAt b.board (x, y) = none
  · rw [play_actual_move_pos hg] at h ⊢
    by_cases hrej : (captureScan b.size c true (setCell b.board (x, y) (some c))
        b.captured b.last_captured (x, y)).any = false ∧
        has_liberties b.size
          (get_group b.size (captureScan b.size c true
            (setCell b.board (x, y) (some c)) b.captured b.last_captured (x, y)).grid
            (x, y))
          (captureScan b.size c true (setCell b.board (x, y) (some c))
            b.captured b.last_captured (x, y)).grid = false
    · rw [if_pos hrej]
    · rw [if_neg hrej] at h
      exact Bool.noConfusion h
  · rw [play_actual_move_neg hg]

theorem play_move_size (b : GoBoard) (x y : ℤ) (c : Color) :
    (play_move b x y c).2.size = b.size := by
  by_cases hg : is_on_board b.size x y = true ∧ cellAt b.board (x, y) = none
  · rw [play_move_pos hg]
    split <;> rfl
  · rw [play_move_neg hg]

theorem play_actual_move_size (b : GoBoard) (x y : ℤ) (c : Color) :
    (play_actual_move b x y c).2.size = b.size := by
  by_cases hg : is_on_board b.size x y = true ∧ cellAt b.board (x, y) = none
  · rw [play_actual_move_pos hg]
    split <;> rfl
  · rw [play_actual_move_neg hg]

/-- Claim C2, `play_move` form: an accepted move preserves the liberty
invariant. -/
theorem play_move_liberty (b : GoBoard) (x y : ℤ) (c : Color)
    (hwf : wfGrid b.size b.board) (hinv : LibertyInv b.size b.board)
    (hacc : (play_move b x y c).1 = true) :
    LibertyInv b.size (play_move b x y c).2.board := by
  by_cases hg : is_on_board b.size x y = true ∧ cellAt b.board (x, y) = none
  · rw [play_move_pos hg] at hacc ⊢
    by_cases hrej : (captureScan b.size c false (setCell b.board (x, y) (some c))
        b.captured b.last_captured (x, y)).any = false ∧
        has_liberties b.size
          (get_group b.size (captureScan b.size c false
            (setCell b.board (x, y) (some c)) b.captured b.last_captured (x, y)).grid
            (x, y))
          (captureScan b.size c false (setCell b.board (x, y) (some c))
            b.captured b.last_captured (x, y)).grid = false
    · rw [if_pos hrej] at hacc
      exact Bool.noConfusion hacc
    · rw [if_neg hrej]
      exact scan_preserves_liberty hwf hg.1 hg.2 hinv hrej
  · rw [play_move_neg hg] at hacc
    exact Bool.noConfusion hacc

/-- Claim C2, `play_actual_move` form. -/
theorem play_actual_move_liberty (b : GoBoard) (x y : ℤ) (c : Color)
    (hwf : wfGrid b.size b.board) (hinv : LibertyInv b.size b.board)
    (hacc : (play_actual_move b x y c).1 = true) :
    LibertyInv b.size (play_actual_move b x y c).2.board := by
  by_cases hg : is_on_board b.size x y = true ∧ cellAt b.board (x, y) = none
  · rw [play_actual_move_pos hg] at hacc ⊢
    by_cases hrej : (captureScan b.size c true (setCell b.board (x, y) (some c))
        b.captured b.last_captured (x, y)).any = false ∧
        has_liberties b.size
          (get_group b.size (captureScan b.size c true
            (setCell b.board (x, y) (some c)) b.captured b.last_captured (x, y)).grid
            (x, y))
          (captureScan b.size c true (setCell b.board (x, y) (some c))
            b.captured b.last_captured (x, y)).grid = false
    · rw [if_pos hrej] at hacc
      exact Bool.noConfusion hacc
    · rw [if_neg hrej]
      exact scan_preserves_liberty hwf hg.1 hg.2 hinv hrej
  · rw [play_actual_move_neg hg] at hacc
    exact Bool.noConfusion hacc

/-- If every opposing neighbor group (on the board holding the new stone)
has a liberty, the capture scan does nothing. -/
theorem captureScan_noop {sz : ℕ} {c : Color} {tl : Bool} {g1 : Grid}
    {cap : Captured} {lc : LastCaptured} {p : Pos}
    (h : ∀ n ∈ get_neighbors sz p, ∀ nc, cellAt g1 n = some nc → nc ≠ c →
      has_liberties sz (get_group sz g1 n) g1 = true) :
    captureScan sz c tl g1 cap lc p = ⟨g1, cap, lc, false⟩ := by
  rw [captureScan_eq_foldl]
  have : ∀ (l : List Pos), (∀ n ∈ l, n ∈ get_neighbors sz p) →
      l.foldl (captureStep sz c tl) ⟨g1, cap, lc, false⟩ = ⟨g1, cap, lc, false⟩ := by
    intro l
    induction l with
    | nil => intro _; rfl
    | cons n rest ih =>
      intro hmem
      have hn : n ∈ get_neighbors sz p := hmem n (List.mem_cons_self _ _)
      have hstep : captureStep sz c tl ⟨g1, cap, lc, false⟩ n
          = ⟨g1, cap, lc, false⟩ := by
        rcases hc : cellAt g1 n with - | nc
        · simp [captureStep, hc]
        · by_cases hcc : nc = c
          · simp [captureStep, hc, hcc]
          · have hlib := h n hn nc hc hcc
            simp [captureStep, hc, hcc, hlib]
      show rest.foldl (captureStep sz c tl)
        (captureStep sz c tl ⟨g1, cap, lc, false⟩ n) = _
      rw [hstep]
      exact ih (fun m hm => hmem m (List.mem_cons_of_mem _ hm))
  exact this _ (fun n hn => hn)

/-- The captured-flag never resets, and already-emptied cells stay empty. -/
theorem captureStep_keeps_dead {sz : ℕ} {c : Color} {tl : Bool} {p : Pos}
    {g1 : Grid} {cap : Captured} {lc : LastCaptured}
    {st : CapState} {m : Pos} {G : Finset Pos}
    (hm : m ∈ get_neighbors sz p)
    (hinv : ScanInv sz c p g1 cap lc st)
    (hGon : ∀ q ∈ G, is_on_board sz q.1 q.2 = true)
    (hP : st.any = true ∧ ∀ q ∈ G, cellAt st.grid q = none) :
    (captureStep sz c tl st m).any = true ∧
      ∀ q ∈ G, cellAt (captureStep sz c tl st m).grid q = none := by
  obtain ⟨hany, hdead⟩ := hP
  obtain ⟨-, hstep⟩ := captureStep_spec hm hinv
  constructor
  · rcases hc : cellAt st.grid m with - | nc
    · simpa [captureStep, hc] using hany
    · by_cases hcc : nc = c
      · simpa [captureStep, hc, hcc] using hany
      · by_cases hlib : has_liberties sz (get_group sz st.grid m) st.grid = true
        · simpa [captureStep, hc, hcc, hlib] using hany
        · simp [captureStep, hc, hcc, hlib]
  · intro q hq
    exact gridStepRel_none hstep (hGon q hq) (hdead q hq)

/-- While a doomed group is still intact, each scan step either leaves it
intact or captures it whole (setting the flag). -/
theorem captureStep_keeps_doomed {sz : ℕ} {c : Color} {tl : Bool} {p : Pos}
    {g1 : Grid} {cap : Captured} {lc : LastCaptured} {st : CapState} {m n : Pos}
    (hm : m ∈ get_neighbors sz p)
    (hnob : is_on_board sz n.1 n.2 = true)
    (hopp : cellAt g1 n = some (opponent_color c))
    (hinv : ScanInv sz c p g1 cap lc st)
    (hQ : (st.any = true ∧ ∀ q ∈ get_group sz g1 n, cellAt st.grid q = none) ∨
      (∀ q ∈ get_group sz g1 n, cellAt st.grid q = cellAt g1 q)) :
    ((captureStep sz c tl st m).any = true ∧
      ∀ q ∈ get_group sz g1 n, cellAt (captureStep sz c tl st m).grid q = none) ∨
    (∀ q ∈ get_group sz g1 n, cellAt (captureStep sz c tl st m).grid q = cellAt g1 q) := by
  have hGon : ∀ q ∈ get_group sz g1 n, is_on_board sz q.1 q.2 = true :=
    fun q hq => get_group_onboard hnob hq
  have hGopp : ∀ q ∈ get_group sz g1 n, cellAt g1 q = some (opponent_color c) :=
    fun q hq => (get_group_value hnob hq).trans hopp
  rcases hQ with hP | hint
  · exact Or.inl (captureStep_keeps_dead hm hinv hGon hP)
  · have hmob : is_on_board sz m.1 m.2 = true := mem_get_neighbors hm
    rcases hc : cellAt st.grid m with - | nc
    · rw [show captureStep sz c tl st m = st by simp [captureStep, hc]]
      exact Or.inr hint
    · by_cases hcc : nc = c
      · rw [show captureStep sz c tl st m = st by simp [captureStep, hc, hcc]]
        exact Or.inr hint
      · by_cases hlib : has_liberties sz (get_group sz st.grid m) st.grid = true
        · rw [show captureStep sz c tl st m = st by
            simp [captureStep, hc, hcc, hlib]]
          exact Or.inr hint
        · have hgrid2 : (captureStep sz c tl st m).grid =
              clearCells (get_group sz st.grid m) st.grid := by
            simp only [captureStep, hc]
            rw [if_neg hcc, if_neg hlib]
          have hany2 : (captureStep sz c tl st m).any = true := by
            simp only [captureStep, hc]
            rw [if_neg hcc, if_neg hlib]
          by_cases hdisj : ∀ q ∈ get_group sz g1 n, q ∉ get_group sz st.grid m
          · refine Or.inr ?_
            intro q hq
            rw [hgrid2, cellAt_clearCells hinv.1 (hGon q hq), if_neg (hdisj q hq)]
            exact hint q hq
          · push_neg at hdisj
            obtain ⟨x, hxG, hxg⟩ := hdisj
            have hxob : is_on_board sz x.1 x.2 = true := hGon x hxG
            have hxst : cellAt st.grid x = some (opponent_color c) :=
              (hint x hxG).trans (hGopp x hxG)
            have e1 : get_group sz st.grid x = get_group sz g1 x :=
              hinv.2.2.1 x hxob hxst
            have e2 : get_group sz g1 x = get_group sz g1 n :=
              get_group_eq_of_mem hnob hxG
            have e3 : get_group sz st.grid x = get_group sz st.grid m :=
              get_group_eq_of_mem hmob hxg
            have hGrp : get_group sz st.grid m = get_group sz g1 n := by
              rw [← e3, e1, e2]
            refine Or.inl ⟨hany2, ?_⟩
            intro q hq
            rw [hgrid2, cellAt_clearCells hinv.1 (hGon q hq), hGrp, if_pos hq]

theorem foldl_keeps_doomed {sz : ℕ} {c : Color} {tl : Bool} {p : Pos}
    {g1 : Grid} {cap : Captured} {lc : LastCaptured} {n : Pos}
    (hnob : is_on_board sz n.1 n.2 = true)
    (hopp : cellAt g1 n = some (opponent_color c)) :
    ∀ (l : List Pos) (st : CapState), (∀ m ∈ l, m ∈ get_neighbors sz p) →
      ScanInv sz c p g1 cap lc st →
      ((st.any = true ∧ ∀ q ∈ get_group sz g1 n, cellAt st.grid q = none) ∨
        (∀ q ∈ get_group sz g1 n, cellAt st.grid q = cellAt g1 q)) →
      (((l.foldl (captureStep sz c tl) st).any = true ∧
        ∀ q ∈ get_group sz g1 n,
          cellAt (l.foldl (captureStep sz c tl) st).grid q = none) ∨
      (∀ q ∈ get_group sz g1 n,
        cellAt (l.foldl (captureStep sz c tl) st).grid q = cellAt g1 q)) := by
  intro l
  induction l with
  | nil => intro st _ _ hQ; exact hQ
  | cons m rest ih =>
    intro st hmem hinv hQ
    have hm : m ∈ get_neighbors sz p := hmem m (List.mem_cons_self _ _)
    exact ih (captureStep sz c tl st m)
      (fun r hr => hmem r (List.mem_cons_of_mem _ hr))
      (captureStep_spec hm hinv).1
      (captureStep_keeps_doomed hm hnob hopp hinv hQ)

/-- An adjacent opposing group with no liberties on the placed board is
fully removed by the capture scan, which also sets the captured flag. -/
theorem captureScan_captures {sz : ℕ} {c : Color} {tl : Bool} {p : Pos}
    {g1 : Grid} {cap : Captured} {lc : LastCaptured} {n : Pos}
    (hwf1 : wfGrid sz g1)
    (hn : n ∈ get_neighbors sz p)
    (hopp : cellAt g1 n = some (opponent_color c))
    (hnl : has_liberties sz (get_group sz g1 n) g1 = false) :
    (captureScan sz c tl g1 cap lc p).any = true ∧
      ∀ q ∈ get_group sz g1 n,
        cellAt (captureScan sz c tl g1 cap lc p).grid q = none := by
  have hnob : is_on_board sz n.1 n.2 = true := mem_get_neighbors hn
  have hGon : ∀ q ∈ get_group sz g1 n, is_on_board sz q.1 q.2 = true :=
    fun q hq => get_group_onboard hnob hq
  have hGopp : ∀ q ∈ get_group sz g1 n, cellAt g1 q = some (opponent_color c) :=
    fun q hq => (get_group_value hnob hq).trans hopp
  obtain ⟨l1, l2, hsplit⟩ := List.append_of_mem hn
  have hmem1 : ∀ m ∈ l1, m ∈ get_neighbors sz p := by
    intro m hm
    rw [hsplit]
    exact List.mem_append.mpr (Or.inl hm)
  have hmem2 : ∀ m ∈ l2, m ∈ get_neighbors sz p := by
    intro m hm
    rw [hsplit]
    exact List.mem_append.mpr (Or.inr (List.mem_cons_of_mem _ hm))
  set st0 : CapState := ⟨g1, cap, lc, false⟩ with hst0
  have hinv0 : ScanInv sz c p g1 cap lc st0 := scanInv_init sz c p g1 cap lc hwf1
  set st1 := l1.foldl (captureStep sz c tl) st0 with hst1
  have hinv1 : ScanInv sz c p g1 cap lc st1 :=
    (captureScanFold_spec l1 st0 hmem1 hinv0).1
  have hQ1 : (st1.any = true ∧ ∀ q ∈ get_group sz g1 n, cellAt st1.grid q = none) ∨
      (∀ q ∈ get_group sz g1 n, cellAt st1.grid q = cellAt g1 q) :=
    foldl_keeps_doomed hnob hopp l1 st0 hmem1 hinv0 (Or.inr (fun q _ => rfl))
  set st2 := captureStep sz c tl st1 n with hst2
  have hinv2 : ScanInv sz c p g1 cap lc st2 := (captureStep_spec hn hinv1).1
  have hP2 : st2.any = true ∧ ∀ q ∈ get_group sz g1 n, cellAt st2.grid q = none := by
    rcases hQ1 with hP | hint
    · rw [hst2]
      exact captureStep_keeps_dead hn hinv1 hGon hP
    · have hcelln : cellAt st1.grid n = some (opponent_color c) :=
        (hint n (self_mem_get_group hnob)).trans hopp
      have hgrpn : get_group sz st1.grid n = get_group sz g1 n :=
        hinv1.2.2.1 n hnob hcelln
      have hlib1 : has_liberties sz (get_group sz st1.grid n) st1.grid = false := by
        rw [hgrpn]
        by_contra hl
        rw [Bool.not_eq_false, has_liberties_iff] at hl
        obtain ⟨r, hrG, m', hm', hnone⟩ := hl
        have hrob : is_on_board sz r.1 r.2 = true := hGon r hrG
        have hmob' : is_on_board sz m'.1 m'.2 = true := mem_get_neighbors hm'
        rcases hinv1.2.1 m' hmob' with h2 | h2
        · rw [hnone] at h2
          have : has_liberties sz (get_group sz g1 n) g1 = true := by
            rw [has_liberties_iff]
            exact ⟨r, hrG, m', hm', h2.symm⟩
          rw [this] at hnl
          exact Bool.noConfusion hnl
        · have hmG : m' ∈ get_group sz g1 n := by
            have : m' ∈ get_group sz g1 r :=
              mem_get_group_of_adj hrob hm' (h2.2.trans (hGopp r hrG).symm)
            rw [get_group_eq_of_mem hnob hrG] at this
            exact this
          have := hint m' hmG
          rw [hnone] at this
          rw [hGopp m' hmG] at this
          exact Option.noConfusion this
      have hoppne : opponent_color c ≠ c := opponent_color_ne c
      have hgrid2 : st2.grid = clearCells (get_group sz st1.grid n) st1.grid := by
        rw [hst2]
        simp only [captureStep, hcelln]
        rw [if_neg hoppne, if_neg (by rw [hlib1]; exact Bool.noConfusion)]
      have hany2 : st2.any = true := by
        rw [hst2]
        simp only [captureStep, hcelln]
        rw [if_neg hoppne, if_neg (by rw [hlib1]; exact Bool.noConfusion)]
      refine ⟨hany2, ?_⟩
      intro q hq
      rw [hgrid2, cellAt_clearCells hinv1.1 (hGon q hq), hgrpn, if_pos hq]
  have hfold : captureScan sz c tl g1 cap lc p
      = l2.foldl (captureStep sz c tl) st2 := by
    rw [captureScan_eq_foldl, hsplit, List.foldl_append]
    rfl
  rw [hfold]
  have := @foldl_keeps_doomed sz c tl p g1 cap lc n hnob hopp l2 st2 hmem2 hinv2
    (Or.inl hP2)
  rcases this with h | hint
  · exact h
  · -- the group cannot be intact again: its cells are already empty
    obtain ⟨hany2, hdead2⟩ := hP2
    have hfinal := (@captureScanFold_spec sz c p g1 cap lc tl l2 st2 hmem2 hinv2).2.1
    refine ⟨?_, ?_⟩
    · -- the flag stays true along l2
      have : ∀ (l : List Pos) (st : CapState), st.any = true →
          (l.foldl (captureStep sz c tl) st).any = true := by
        intro l
        induction l with
        | nil => intro st h; exact h
        | cons m rest ih =>
          intro st h
          refine ih (captureStep sz c tl st m) ?_
          rcases hc : cellAt st.grid m with - | nc
          · simpa [captureStep, hc] using h
          · by_cases hcc : nc = c
            · simpa [captureStep, hc, hcc] using h
            · by_cases hlib : has_liberties sz (get_group sz st.grid m) st.grid = true
              · simpa [captureStep, hc, hcc, hlib] using h
              · simp [captureStep, hc, hcc, hlib]
      exact this l2 st2 hany2
    · intro q hq
      exact gridStepRel_none hfinal (hGon q hq) (hdead2 q hq)

/-- C1: a self-capturing placement (no opposing group captured, own group
without liberties) is rejected with the state unchanged. -/
theorem play_move_self_capture_rejected (b : GoBoard) (x y : ℤ) (c : Color)
    (hon : is_on_board b.size x y = true)
    (hempty : cellAt b.board (x, y) = none)
    (hnocap : ∀ n ∈ get_neighbors b.size (x, y),
      cellAt (setCell b.board (x, y) (some c)) n = some (opponent_color c) →
      has_liberties b.size (get_group b.size (setCell b.board (x, y) (some c)) n)
        (setCell b.board (x, y) (some c)) = true)
    (hsuic : has_liberties b.size
      (get_group b.size (setCell b.board (x, y) (some c)) (x, y))
      (setCell b.board (x, y) (some c)) = false) :
    play_move b x y c = (false, b) := by
  have hnoop : captureScan b.size c false (setCell b.board (x, y) (some c))
      b.captured b.last_captured (x, y)
      = ⟨setCell b.board (x, y) (some c), b.captured, b.last_captured, false⟩ := by
    refine captureScan_noop ?_
    intro n hn nc hcell hne
    have : nc = opponent_color c := opp_of_ne hne
    subst this
    exact hnocap n hn hcell
  rw [play_move_pos ⟨hon, hempty⟩, hnoop, if_pos ⟨rfl, hsuic⟩]

/-- C8: a placement adjacent to an opposing group left with no liberties is
accepted (captures resolve before the self-capture test) and that group's
cells are emptied. -/
theorem play_move_capture_accepts (b : GoBoard) (x y : ℤ) (c : Color)
    (hwf : wfGrid b.size b.board)
    (hon : is_on_board b.size x y = true)
    (hempty : cellAt b.board (x, y) = none)
    (n : Pos) (hn : n ∈ get_neighbors b.size (x, y))
    (hopp : cellAt (setCell b.board (x, y) (some c)) n = some (opponent_color c))
    (hnl : has_liberties b.size
      (get_group b.size (setCell b.board (x, y) (some c)) n)
      (setCell b.board (x, y) (some c)) = false) :
    (play_move b x y c).1 = true ∧
    ∀ q ∈ get_group b.size (setCell b.board (x, y) (some c)) n,
      cellAt (play_move b x y c).2.board q = none := by
  have hwf1 : wfGrid b.size (setCell b.board (x, y) (some c)) := wfGrid_setCell hwf
  obtain ⟨hany, hdead⟩ := @captureScan_captures b.size c false (x, y)
    (setCell b.board (x, y) (some c)) b.captured b.last_captured n
    hwf1 hn hopp hnl
  have hcond : ¬ ((captureScan b.size c false (setCell b.board (x, y) (some c))
      b.captured b.last_captured (x, y)).any = false ∧
      has_liberties b.size
        (get_group b.size (captureScan b.size c false
          (setCell b.board (x, y) (some c)) b.captured b.last_captured (x, y)).grid
          (x, y))
        (captureScan b.size c false (setCell b.board (x, y) (some c))
          b.captured b.last_captured (x, y)).grid = false) := by
    intro hcon
    rw [hany] at hcon
    exact Bool.noConfusion hcon.1
  rw [play_move_pos ⟨hon, hempty⟩, if_neg hcond]
  exact ⟨rfl, hdead⟩

/-- C1: placing a stone on an empty on-board cell that captures no opposing
group (every adjacent opposing group keeps a liberty) while the placed
stone's own group has zero liberties is rejected: `play_move` returns
`False` and leaves the cells and both captured counts unchanged; and in
general `play_move` mutates the board only when it returns `True`. -/
theorem claim_C1 :
    (∀ (b : GoBoard) (x y : ℤ) (c : Color),
      is_on_board b.size x y = true →
      cellAt b.board (x, y) = none →
      (∀ n ∈ get_neighbors b.size (x, y),
        cellAt (setCell b.board (x, y) (some c)) n = some (opponent_color c) →
        has_liberties b.size (get_group b.size (setCell b.board (x, y) (some c)) n)
          (setCell b.board (x, y) (some c)) = true) →
      has_liberties b.size
        (get_group b.size (setCell b.board (x, y) (some c)) (x, y))
        (setCell b.board (x, y) (some c)) = false →
      (play_move b x y c).1 = false ∧
      (play_move b x y c).2.board = b.board ∧
      (play_move b x y c).2.captured = b.captured) ∧
    (∀ (b : GoBoard) (x y : ℤ) (c : Color),
      (play_move b x y c).1 = false →
      (play_move b x y c).2.board = b.board ∧
      (play_move b x y c).2.captured = b.captured) := by
  constructor
  · intro b x y c hon hempty hnocap hsuic
    rw [play_move_self_capture_rejected b x y c hon hempty hnocap hsuic]
    exact ⟨rfl, rfl, rfl⟩
  · intro b x y c hfalse
    rw [play_move_false_unchanged b x y c hfalse]
    exact ⟨rfl, rfl⟩

theorem claim_C1_witness :
    (play_move C1board 0 0 Color.black).1 = false ∧
    (play_move C1board 0 0 Color.black).2.board = C1board.board ∧
    (play_move C1board 0 0 Color.black).2.captured = C1board.captured :=
  claim_C1.1 C1board 0 0 Color.black (by decide) (by decide) (by decide) (by decide)

/-- C2: on a board where every group has a liberty, any accepted move
(`play_move` or `play_actual_move` returning `True`) again leaves every
group with at least one liberty. -/
theorem claim_C2 (b : GoBoard) (x y : ℤ) (c : Color)
    (hwf : wfGrid b.size b.board) (hinv : LibertyInv b.size b.board) :
    ((play_move b x y c).1 = true →
      LibertyInv (play_move b x y c).2.size (play_move b x y c).2.board) ∧
    ((play_actual_move b x y c).1 = true →
      LibertyInv (play_actual_move b x y c).2.size (play_actual_move b x y c).2.board) := by
  constructor
  · intro hacc
    rw [play_move_size]
    exact play_move_liberty b x y c hwf hinv hacc
  · intro hacc
    rw [play_actual_move_size]
    exact play_actual_move_liberty b x y c hwf hinv hacc

theorem claim_C2_witness :
    LibertyInv (play_move C2board 0 0 Color.black).2.size
      (play_move C2board 0 0 Color.black).2.board ∧
    LibertyInv (play_actual_move C2board 0 0 Color.black).2.size
      (play_actual_move C2board 0 0 Color.black).2.board := by
  have h := claim_C2 C2board 0 0 Color.black (by decide) (by decide)
  exact ⟨h.1 (by decide), h.2 (by decide)⟩

/-- C8: a placement that leaves an adjacent opposing group with zero
liberties is accepted by `play_move` regardless of the placed stone's own
liberties — captures are resolved before the suicide check — and the
captured group's cells are emptied. -/
theorem claim_C8 (b : GoBoard) (x y : ℤ) (c : Color)
    (hwf : wfGrid b.size b.board)
    (hon : is_on_board b.size x y = true)
    (hempty : cellAt b.board (x, y) = none)
    (n : Pos) (hn : n ∈ get_neighbors b.size (x, y))
    (hopp : cellAt (setCell b.board (x, y) (some c)) n = some (opponent_color c))
    (hnl : has_liberties b.size
      (get_group b.size (setCell b.board (x, y) (some c)) n)
      (setCell b.board (x, y) (some c)) = false) :
    (play_move b x y c).1 = true ∧
    ∀ q ∈ get_group b.size (setCell b.board (x, y) (some c)) n,
      cellAt (play_move b x y c).2.board q = none :=
  play_move_capture_accepts b x y c hwf hon hempty n hn hopp hnl

theorem claim_C8_witness :
    (play_move C8board 0 0 Color.black).1 = true ∧
    ∀ q ∈ get_group C8board.size (setCell C8board.board (0, 0) (some Color.black))
        ((0 : ℤ), (1 : ℤ)),
      cellAt (play_move C8board 0 0 Color.black).2.board q = none :=
  claim_C8 C8board 0 0 Color.black (by decide) (by decide) (by decide)
    ((0 : ℤ), (1 : ℤ)) (by decide) (by decide) (by decide)

/-- C4: a move whose bare placement recreates a configuration from the
history is rejected by `is_legal_move` (for every board); concretely, in the
ko position `koBoard` White's immediate recapture at (1,1) — which would
recreate `koGridP0` — is rejected, the two intervening moves White (3,3) and
Black (0,0) are legal and accepted, and after them the same recapture at
(1,1) is legal again. -/
theorem claim_C4 :
    (∀ (b : GoBoard) (x y : ℤ) (c : Color),
      setCell b.board (x, y) (some c) ∈ b.previous_boards →
      is_legal_move b x y c = false) ∧
    is_legal_move koBoard 1 1 Color.white = false ∧
    is_legal_move koBoard 3 3 Color.white = true ∧
    (play_actual_move koBoard 3 3 Color.white).1 = true ∧
    is_legal_move (game_move koBoard Color.white (3, 3)) 0 0 Color.black = true ∧
    (play_actual_move (game_move koBoard Color.white (3, 3)) 0 0 Color.black).1 = true ∧
    is_legal_move
      (game_move (game_move koBoard Color.white (3, 3)) Color.black (0, 0))
      1 1 Color.white = true := by
  refine ⟨?_, by decide, by decide, by decide, by decide, by decide, by decide⟩
  intro b x y c hmem
  rw [is_legal_move]
  by_cases hocc : cellAt b.board (x, y) ≠ none
  · rw [if_pos hocc]
  · rw [if_neg hocc, if_pos hmem]

theorem claim_C4_witness : is_legal_move koBoard 2 1 Color.black = false :=
  claim_C4.1 koBoard 2 1 Color.black (by decide)

/-- C5 fails as stated: `copy` does not preserve the captured counts. -/
theorem claim_C5_counterexample :
    ¬ ((GoBoard.copy koBoard).board = koBoard.board ∧
      (GoBoard.copy koBoard).captured = koBoard.captured) := by
  decide

/-- C5 (amended): `copy` returns a fresh board with the same size and an
equal cell grid, sharing the history list, but the captured counts are
reset to zero and the last-captured record is cleared — reverting to a
saved copy restores the grid, not the capture counts. -/
theorem claim_C5_amended (b : GoBoard) :
    b.copy.size = b.size ∧ b.copy.board = b.board ∧
    b.copy.previous_boards = b.previous_boards ∧
    b.copy.captured = ⟨0, 0⟩ ∧ b.copy.last_captured = ⟨none, none⟩ :=
  ⟨rfl, rfl, rfl, rfl, rfl⟩

/-- C7: with no legal moves, every search strategy returns `none` as its
move (the root loops never execute, leaving `best_move = None`), and MCTS
run with 0 iterations returns `none` on every board because the root has no
expanded children and `best_child` of an empty child list yields no move. -/
theorem claim_C7 :
    (∀ (ev : GoBoard → Color → ℚ) (b : GoBoard) (c : Color) (d : ℕ),
      get_legal_moves b c = [] → (minimax ev b c d).1 = none) ∧
    (∀ (ev : GoBoard → Color → ℚ) (b : GoBoard) (c : Color) (d : ℕ),
      get_legal_moves b c = [] → (alphabeta_minimax ev b c d).1 = none) ∧
    (∀ (b : GoBoard) (c : Color) (d : ℕ),
      get_legal_moves b c = [] → (expectimax b c d).1 = none) ∧
    (∀ (iter : MCTSNode → MCTSNode) (b : GoBoard) (c : Color),
      mcts_search iter b c 0 = none) := by
  refine ⟨?_, ?_, ?_, ?_⟩
  · intro ev b c d h
    rw [minimax, h]
    rfl
  · intro ev b c d h
    rw [alphabeta_minimax, h]
    rfl
  · intro b c d h
    rw [expectimax, h]
    rfl
  · intro iter b c
    rfl

theorem claim_C7_witness :
    (minimax (fun b c => ((evaluate_board b c : ℤ) : ℚ)) fullBoard1 Color.black 2).1
        = none ∧
    (alphabeta_minimax (fun b c => ((evaluate_board b c : ℤ) : ℚ))
        fullBoard1 Color.black 2).1 = none ∧
    (expectimax fullBoard1 Color.black 2).1 = none ∧
    mcts_search id fullBoard1 Color.black 0 = none :=
  ⟨claim_C7.1 _ fullBoard1 Color.black 2 (by decide),
   claim_C7.2.1 _ fullBoard1 Color.black 2 (by decide),
   claim_C7.2.2.1 fullBoard1 Color.black 2 (by decide),
   claim_C7.2.2.2 id fullBoard1 Color.black⟩

theorem expectimax_search_black_spec : ∀ (d : ℕ) (b : GoBoard) (c : Color)
    (memo : Memo),
    expectimax_search d b c memo = expectimaxSpec_search Color.black d b c memo := by
  intro d
  induction d with
  | zero =>
    intro b c memo
    rw [expectimax_search, expectimaxSpec_search]
  | succ d ih =>
    intro b c memo
    rw [expectimax_search, expectimaxSpec_search]
    simp only [ih]

/-- C6 fails as stated for a WHITE searcher: on the empty 2×2 board at
depth 2, the value computed by `expectimax` differs from the value of the
spec-described tree (maximize for the searching color, average for the
opponent), because the code's maximizing test is hard-coded to BLACK. -/
theorem claim_C6_counterexample :
    (expectimax emptyB2 Color.white 2).2
      ≠ (expectimaxSpecRoot Color.white emptyB2 Color.white 2).2 := by
  decide

/-- C6 (amended): with searching color BLACK the implementation computes
exactly the spec-described expectimax tree — BLACK-to-move nodes maximize
and WHITE-to-move nodes average their children with uniform probability —
and the arithmetic mean used at chance nodes is invariant under permutation
of the children's values.  For a WHITE searcher the correspondence fails
(the maximizing test compares the node color to the literal BLACK). -/
theorem claim_C6_amended :
    (∀ (d : ℕ) (b : GoBoard) (c : Color) (memo : Memo),
      expectimax_search d b c memo = expectimaxSpec_search Color.black d b c memo) ∧
    (∀ (b : GoBoard) (d : ℕ),
      expectimax b Color.black d = expectimaxSpecRoot Color.black b Color.black d) ∧
    (∀ (l1 l2 : List ℚ), l1.Perm l2 → average_value l1 = average_value l2) := by
  refine ⟨expectimax_search_black_spec, ?_, ?_⟩
  · intro b d
    rw [expectimax, expectimaxSpecRoot]
    simp only [expectimax_search_black_spec]
  · intro l1 l2 hperm
    rw [average_value, average_value, hperm.sum_eq, hperm.length_eq]

theorem claim_C6_amended_witness :
    expectimax emptyB2 Color.black 2 = expectimaxSpecRoot Color.black emptyB2 Color.black 2 ∧
    average_value [1, 2, 4] = average_value [4, 1, 2] :=
  ⟨claim_C6_amended.2.1 emptyB2 2,
   claim_C6_amended.2.2 [1, 2, 4] [4, 1, 2] (by decide)⟩

theorem XFloat.le_def (a b : XFloat) : a ≤ b ↔ XFloat.ble a b = true := Iff.rfl

theorem XFloat.lt_def (a b : XFloat) : a < b ↔ XFloat.blt a b = true := Iff.rfl

theorem XFloat.fmax_eq_max (a b : XFloat) : XFloat.fmax a b = max a b := rfl

theorem XFloat.fmin_eq_min (a b : XFloat) : XFloat.fmin a b = min a b := rfl

theorem XFloat.ninf_le (a : XFloat) : XFloat.ninf ≤ a := by
  cases a <;> simp [XFloat.le_def, XFloat.ble]

theorem XFloat.le_pinf (a : XFloat) : a ≤ XFloat.pinf := by
  cases a <;> simp [XFloat.le_def, XFloat.ble]

/-- Splitting a running-maximum fold into its initial value and the
maximum over the list alone. -/
theorem foldl_max_split (g : Pos → XFloat) (l : List Pos) (a : XFloat) :
    l.foldl (fun x mv => max x (g mv)) a
      = max a (l.foldl (fun x mv => max x (g mv)) XFloat.ninf) := by
  induction l generalizing a with
  | nil => simp [max_eq_left (XFloat.ninf_le a)]
  | cons mv t ih =>
    simp only [List.foldl_cons]
    rw [ih (max a (g mv)), ih (max XFloat.ninf (g mv))]
    rw [max_eq_right (XFloat.ninf_le (g mv)), max_assoc]

/-- Splitting a running-minimum fold into its initial value and the
minimum over the list alone. -/
theorem foldl_min_split (g : Pos → XFloat) (l : List Pos) (a : XFloat) :
    l.foldl (fun x mv => min x (g mv)) a
      = min a (l.foldl (fun x mv => min x (g mv)) XFloat.pinf) := by
  induction l generalizing a with
  | nil => simp [min_eq_left (XFloat.le_pinf a)]
  | cons mv t ih =>
    simp only [List.foldl_cons]
    rw [ih (min a (g mv)), ih (min XFloat.pinf (g mv))]
    rw [min_eq_right (XFloat.le_pinf (g mv)), min_assoc]

theorem le_foldl_max (g : Pos → XFloat) (l : List Pos) (a : XFloat) :
    a ≤ l.foldl (fun x mv => max x (g mv)) a := by
  rw [foldl_max_split]
  exact le_max_left _ _

theorem foldl_min_le (g : Pos → XFloat) (l : List Pos) (a : XFloat) :
    l.foldl (fun x mv => min x (g mv)) a ≤ a := by
  rw [foldl_min_split]
  exact min_le_left _ _

theorem foldl_max_mono (g : Pos → XFloat) (l : List Pos) {a b : XFloat}
    (h : a ≤ b) :
    l.foldl (fun x mv => max x (g mv)) a ≤ l.foldl (fun x mv => max x (g mv)) b := by
  rw [foldl_max_split, foldl_max_split g l b]
  exact max_le_max h le_rfl

theorem foldl_min_mono (g : Pos → XFloat) (l : List Pos) {a b : XFloat}
    (h : a ≤ b) :
    l.foldl (fun x mv => min x (g mv)) a ≤ l.foldl (fun x mv => min x (g mv)) b := by
  rw [foldl_min_split, foldl_min_split g l b]
  exact min_le_min h le_rfl

/-- A running-maximum fold of finite values from a finite start is finite. -/
theorem foldl_max_fin (g : Pos → XFloat) (l : List Pos) (a : XFloat)
    (ha : ∃ q, a = XFloat.fin q) (hg : ∀ mv ∈ l, ∃ q, g mv = XFloat.fin q) :
    ∃ q, l.foldl (fun x mv => max x (g mv)) a = XFloat.fin q := by
  induction l generalizing a with
  | nil => exact ha
  | cons mv t ih =>
    simp only [List.foldl_cons]
    refine ih (max a (g mv)) ?_ (fun m hm => hg m (List.mem_cons_of_mem _ hm))
    rcases max_choice a (g mv) with h | h
    · rw [h]; exact ha
    · rw [h]; exact hg mv (List.mem_cons_self _ _)

/-- A running-minimum fold of finite values from a finite start is finite. -/
theorem foldl_min_fin (g : Pos → XFloat) (l : List Pos) (a : XFloat)
    (ha : ∃ q, a = XFloat.fin q) (hg : ∀ mv ∈ l, ∃ q, g mv = XFloat.fin q) :
    ∃ q, l.foldl (fun x mv => min x (g mv)) a = XFloat.fin q := by
  induction l generalizing a with
  | nil => exact ha
  | cons mv t ih =>
    simp only [List.foldl_cons]
    refine ih (min a (g mv)) ?_ (fun m hm => hg m (List.mem_cons_of_mem _ hm))
    rcases min_choice a (g mv) with h | h
    · rw [h]; exact ha
    · rw [h]; exact hg mv (List.mem_cons_self _ _)

theorem minimaxPure_fin (ev : GoBoard → Color → ℚ) :
    ∀ (d : ℕ) (b : GoBoard) (c : Color) (m : Bool),
      ∃ q, minimaxPure ev d b c m = XFloat.fin q := by
  intro d
  induction d with
  | zero =>
    intro b c m
    exact ⟨ev b c, rfl⟩
  | succ d ih =>
    intro b c m
    by_cases hmv : get_legal_moves b c = []
    · refine ⟨ev b c, ?_⟩
      simp only [minimaxPure, hmv]
      simp
    · obtain ⟨m0, rest, hmoves⟩ := List.exists_cons_of_ne_nil hmv
      cases m with
      | true =>
        simp only [minimaxPure, hmv, if_false, hmoves, List.foldl_cons,
          if_true, XFloat.fmax_eq_max]
        simp only [max_eq_right (XFloat.ninf_le _)]
        exact foldl_max_fin _ rest _ (ih _ _ _)
          (fun mv _ => ih _ _ _)
      | false =>
        simp only [minimaxPure, hmv, hmoves, List.foldl_cons,
          Bool.false_eq_true, if_false, XFloat.fmin_eq_min]
        simp only [min_eq_right (XFloat.le_pinf _)]
        exact foldl_min_fin _ rest _ (ih _ _ _)
          (fun mv _ => ih _ _ _)

theorem abloop_cons_max_cut (f : GoBoard → XFloat → XFloat → XFloat)
    (b : GoBoard) (c : Color) (mv : Pos) (rest : List Pos)
    (best alpha beta : XFloat)
    (h : XFloat.ble beta
      (XFloat.fmax alpha (f (play_move b.copy mv.1 mv.2 c).2 alpha beta)) = true) :
    alphabetaPure_loop f b c true (mv :: rest) best alpha beta
      = XFloat.fmax best (f (play_move b.copy mv.1 mv.2 c).2 alpha beta) := by
  rw [alphabetaPure_loop]
  simp [h]

theorem abloop_cons_max_go (f : GoBoard → XFloat → XFloat → XFloat)
    (b : GoBoard) (c : Color) (mv : Pos) (rest : List Pos)
    (best alpha beta : XFloat)
    (h : XFloat.ble beta
      (XFloat.fmax alpha (f (play_move b.copy mv.1 mv.2 c).2 alpha beta)) = false) :
    alphabetaPure_loop f b c true (mv :: rest) best alpha beta
      = alphabetaPure_loop f b c true rest
          (XFloat.fmax best (f (play_move b.copy mv.1 mv.2 c).2 alpha beta))
          (XFloat.fmax alpha (f (play_move b.copy mv.1 mv.2 c).2 alpha beta)) beta := by
  rw [alphabetaPure_loop]
  simp [h]

/-- Fail-soft correctness of the maximizing pruning loop: relative to the
node window `(α₀, β₀)`, the loop's result and the true running maximum of
the children's exact values satisfy the three-case alpha-beta relation. -/
theorem abloop_max (f : GoBoard → XFloat → XFloat → XFloat) (V : GoBoard → XFloat)
    (b : GoBoard) (c : Color) (β₀ : XFloat)
    (hf : ∀ bc (a2 b2 : XFloat), a2 < b2 → ABrel (f bc a2 b2) a2 b2 (V bc))
    (α₀ : XFloat) :
    ∀ (ms : List Pos) (best α : XFloat),
      α = max α₀ best → α < β₀ →
      ABrel (alphabetaPure_loop f b c true ms best α β₀) α₀ β₀
        (ms.foldl (fun x mv => max x (V (play_move b.copy mv.1 mv.2 c).2)) best) := by
  intro ms
  induction ms with
  | nil =>
    intro best α hα hαβ
    exact ⟨fun _ => le_rfl, fun _ => le_rfl, fun _ _ => rfl⟩
  | cons mv rest ih =>
    intro best α hα hαβ
    have hbestα : best ≤ α := by rw [hα]; exact le_max_right _ _
    have hα₀α : α₀ ≤ α := by rw [hα]; exact le_max_left _ _
    rw [List.foldl_cons]
    obtain ⟨habL, habH, habE⟩ := hf (play_move b.copy mv.1 mv.2 c).2 α β₀ hαβ
    by_cases hcut : XFloat.ble β₀
        (XFloat.fmax α (f (play_move b.copy mv.1 mv.2 c).2 α β₀)) = true
    · rw [abloop_cons_max_cut f b c mv rest best α β₀ hcut]
      set v := f (play_move b.copy mv.1 mv.2 c).2 α β₀ with hv
      set W := V (play_move b.copy mv.1 mv.2 c).2 with hW
      have hcut' : β₀ ≤ max α v := hcut
      have hβv : β₀ ≤ v := by
        rcases le_max_iff.mp hcut' with h | h
        · exact absurd h (not_le.mpr hαβ)
        · exact h
      have hvV : v ≤ W := habH hβv
      rw [XFloat.fmax_eq_max]
      have hβR : β₀ ≤ max best v := le_trans hβv (le_max_right _ _)
      have hα₀R : α₀ < max best v := lt_of_lt_of_le (lt_of_le_of_lt hα₀α hαβ) hβR
      refine ⟨?_, ?_, ?_⟩
      · intro h
        exact absurd h (not_le.mpr hα₀R)
      · intro _
        calc max best v ≤ max best W := max_le_max le_rfl hvV
          _ ≤ _ := le_foldl_max _ _ _
      · intro _ h2
        exact absurd hβR (not_le.mpr h2)
    · have hcut0 : XFloat.ble β₀
          (XFloat.fmax α (f (play_move b.copy mv.1 mv.2 c).2 α β₀)) = false := by
        cases hb : XFloat.ble β₀
            (XFloat.fmax α (f (play_move b.copy mv.1 mv.2 c).2 α β₀)) with
        | false => rfl
        | true => exact absurd hb hcut
      rw [abloop_cons_max_go f b c mv rest best α β₀ hcut0]
      set v := f (play_move b.copy mv.1 mv.2 c).2 α β₀ with hv
      set W := V (play_move b.copy mv.1 mv.2 c).2 with hW
      have hnocut : ¬ β₀ ≤ XFloat.fmax α v := by
        intro hh
        have hh2 : XFloat.ble β₀ (XFloat.fmax α v) = true := hh
        rw [hh2] at hcut0
        cases hcut0
      have hα2 : XFloat.fmax α v = max α₀ (XFloat.fmax best v) := by
        rw [XFloat.fmax_eq_max, XFloat.fmax_eq_max, hα, max_assoc]
      have hrec := ih (XFloat.fmax best v) (XFloat.fmax α v) hα2 (not_le.mp hnocut)
      rcases le_or_lt v α with hvα | hvα2
      · have hVv : W ≤ v := habL hvα
        have hb2α : XFloat.fmax best v ≤ α := by
          rw [XFloat.fmax_eq_max]
          exact max_le hbestα hvα
        refine ⟨?_, ?_, ?_⟩
        · intro hR
          refine le_trans ?_ (hrec.1 hR)
          rw [XFloat.fmax_eq_max]
          exact foldl_max_mono _ rest (max_le_max le_rfl hVv)
        · intro hR
          have hRT := hrec.2.1 hR
          rw [foldl_max_split (fun m => V (play_move b.copy m.1 m.2 c).2) rest
            (XFloat.fmax best v)] at hRT
          have hfbR : XFloat.fmax best v
              < alphabetaPure_loop f b c true rest (XFloat.fmax best v)
                  (XFloat.fmax α v) β₀ :=
            lt_of_lt_of_le (lt_of_le_of_lt hb2α hαβ) hR
          have hRM : alphabetaPure_loop f b c true rest (XFloat.fmax best v)
              (XFloat.fmax α v) β₀
              ≤ rest.foldl (fun x m => max x (V (play_move b.copy m.1 m.2 c).2))
                  XFloat.ninf := by
            rcases max_choice (XFloat.fmax best v)
                (rest.foldl (fun x m => max x (V (play_move b.copy m.1 m.2 c).2))
                  XFloat.ninf) with hM | hM
            · rw [hM] at hRT
              exact absurd hRT (not_le.mpr hfbR)
            · rw [hM] at hRT
              exact hRT
          rw [foldl_max_split (fun m => V (play_move b.copy m.1 m.2 c).2) rest
            (max best W)]
          exact le_trans hRM (le_max_right _ _)
        · intro h1 h2
          have hRT := hrec.2.2 h1 h2
          rcases le_or_lt v best with hvb | hbv
          · have e1 : XFloat.fmax best v = best := by
              rw [XFloat.fmax_eq_max]
              exact max_eq_left hvb
            have e2 : max best W = best := max_eq_left (le_trans hVv hvb)
            rw [hRT, e1, e2]
          · have e1 : XFloat.fmax best v = v := by
              rw [XFloat.fmax_eq_max]
              exact max_eq_right (le_of_lt hbv)
            have hαeq : α = α₀ := by
              rcases le_total best α₀ with hba | hab
              · rw [hα]
                exact max_eq_left hba
              · exfalso
                have hαb : α = best := by
                  rw [hα]
                  exact max_eq_right hab
                exact absurd (hαb ▸ hvα) (not_le.mpr hbv)
            have hvα₀ : v ≤ α₀ := hαeq ▸ hvα
            have hbα₀ : best ≤ α₀ := le_of_lt (lt_of_lt_of_le hbv hvα₀)
            have hWα₀ : W ≤ α₀ := le_trans hVv hvα₀
            rw [foldl_max_split (fun m => V (play_move b.copy m.1 m.2 c).2) rest
              (XFloat.fmax best v)] at hRT
            have hRM : alphabetaPure_loop f b c true rest (XFloat.fmax best v)
                (XFloat.fmax α v) β₀
                = rest.foldl (fun x m => max x (V (play_move b.copy m.1 m.2 c).2))
                    XFloat.ninf := by
              rcases max_choice (XFloat.fmax best v)
                  (rest.foldl (fun x m => max x (V (play_move b.copy m.1 m.2 c).2))
                    XFloat.ninf) with hM | hM
              · have hRv := (hRT.trans hM).trans e1
                exact absurd h1 (not_lt.mpr (hRv.trans_le hvα₀))
              · exact hRT.trans hM
            rw [foldl_max_split (fun m => V (play_move b.copy m.1 m.2 c).2) rest
              (max best W)]
            rw [max_eq_right (le_of_lt (lt_of_le_of_lt (max_le hbα₀ hWα₀)
              (lt_of_lt_of_eq h1 hRM)))]
            exact hRM
      · rcases le_or_lt β₀ v with hvβ | hvβ
        · exfalso
          refine hnocut ?_
          rw [XFloat.fmax_eq_max]
          exact le_trans hvβ (le_max_right _ _)
        · have hE : v = W := habE hvα2 hvβ
          have hWv : max best W = XFloat.fmax best v := by
            rw [XFloat.fmax_eq_max, hE]
          rw [hWv]
          exact hrec

theorem abloop_cons_min_cut (f : GoBoard → XFloat → XFloat → XFloat)
    (b : GoBoard) (c : Color) (mv : Pos) (rest : List Pos)
    (best alpha beta : XFloat)
    (h : XFloat.ble
      (XFloat.fmin beta (f (play_move b.copy mv.1 mv.2 c).2 alpha beta)) alpha = true) :
    alphabetaPure_loop f b c false (mv :: rest) best alpha beta
      = XFloat.fmin best (f (play_move b.copy mv.1 mv.2 c).2 alpha beta) := by
  rw [alphabetaPure_loop]
  simp [h]

theorem abloop_cons_min_go (f : GoBoard → XFloat → XFloat → XFloat)
    (b : GoBoard) (c : Color) (mv : Pos) (rest : List Pos)
    (best alpha beta : XFloat)
    (h : XFloat.ble
      (XFloat.fmin beta (f (play_move b.copy mv.1 mv.2 c).2 alpha beta)) alpha = false) :
    alphabetaPure_loop f b c false (mv :: rest) best alpha beta
      = alphabetaPure_loop f b c false rest
          (XFloat.fmin best (f (play_move b.copy mv.1 mv.2 c).2 alpha beta))
          alpha
          (XFloat.fmin beta (f (play_move b.copy mv.1 mv.2 c).2 alpha beta)) := by
  rw [alphabetaPure_loop]
  simp [h]

/-- Fail-soft correctness of the minimizing pruning loop, the mirror image
of `abloop_max`. -/
theorem abloop_min (f : GoBoard → XFloat → XFloat → XFloat) (V : GoBoard → XFloat)
    (b : GoBoard) (c : Color) (α₀ : XFloat)
    (hf : ∀ bc (a2 b2 : XFloat), a2 < b2 → ABrel (f bc a2 b2) a2 b2 (V bc))
    (β₀ : XFloat) :
    ∀ (ms : List Pos) (best β : XFloat),
      β = min β₀ best → α₀ < β →
      ABrel (alphabetaPure_loop f b c false ms best α₀ β) α₀ β₀
        (ms.foldl (fun x mv => min x (V (play_move b.copy mv.1 mv.2 c).2)) best) := by
  intro ms
  induction ms with
  | nil =>
    intro best β hβ hαβ
    exact ⟨fun _ => le_rfl, fun _ => le_rfl, fun _ _ => rfl⟩
  | cons mv rest ih =>
    intro best β hβ hαβ
    have hβbest : β ≤ best := by rw [hβ]; exact min_le_right _ _
    have hββ₀ : β ≤ β₀ := by rw [hβ]; exact min_le_left _ _
    rw [List.foldl_cons]
    obtain ⟨habL, habH, habE⟩ := hf (play_move b.copy mv.1 mv.2 c).2 α₀ β hαβ
    by_cases hcut : XFloat.ble
        (XFloat.fmin β (f (play_move b.copy mv.1 mv.2 c).2 α₀ β)) α₀ = true
    · rw [abloop_cons_min_cut f b c mv rest best α₀ β hcut]
      set v := f (play_move b.copy mv.1 mv.2 c).2 α₀ β with hv
      set W := V (play_move b.copy mv.1 mv.2 c).2 with hW
      have hcut' : min β v ≤ α₀ := hcut
      have hvα : v ≤ α₀ := by
        rcases min_le_iff.mp hcut' with h | h
        · exact absurd h (not_le.mpr hαβ)
        · exact h
      have hWv : W ≤ v := habL hvα
      rw [XFloat.fmin_eq_min]
      have hRα : min best v ≤ α₀ := le_trans (min_le_right _ _) hvα
      have hRβ : min best v < β₀ := lt_of_le_of_lt hRα (lt_of_lt_of_le hαβ hββ₀)
      refine ⟨?_, ?_, ?_⟩
      · intro _
        calc rest.foldl (fun x m => min x (V (play_move b.copy m.1 m.2 c).2))
              (min best W)
            ≤ min best W := foldl_min_le _ _ _
          _ ≤ min best v := min_le_min le_rfl hWv
      · intro h
        exact absurd h (not_le.mpr hRβ)
      · intro h1 _
        exact absurd h1 (not_lt.mpr hRα)
    · have hcut0 : XFloat.ble
          (XFloat.fmin β (f (play_move b.copy mv.1 mv.2 c).2 α₀ β)) α₀ = false := by
        cases hb : XFloat.ble
            (XFloat.fmin β (f (play_move b.copy mv.1 mv.2 c).2 α₀ β)) α₀ with
        | false => rfl
        | true => exact absurd hb hcut
      rw [abloop_cons_min_go f b c mv rest best α₀ β hcut0]
      set v := f (play_move b.copy mv.1 mv.2 c).2 α₀ β with hv
      set W := V (play_move b.copy mv.1 mv.2 c).2 with hW
      have hnocut : ¬ XFloat.fmin β v ≤ α₀ := by
        intro hh
        have hh2 : XFloat.ble (XFloat.fmin β v) α₀ = true := hh
        rw [hh2] at hcut0
        cases hcut0
      have hβ2 : XFloat.fmin β v = min β₀ (XFloat.fmin best v) := by
        rw [XFloat.fmin_eq_min, XFloat.fmin_eq_min, hβ, min_assoc]
      have hrec := ih (XFloat.fmin best v) (XFloat.fmin β v) hβ2 (not_le.mp hnocut)
      rcases le_or_lt β v with hvβ | hvβ2
      · have hvW : v ≤ W := habH hvβ
        have hβb2 : β ≤ XFloat.fmin best v := by
          rw [XFloat.fmin_eq_min]
          exact le_min hβbest hvβ
        refine ⟨?_, ?_, ?_⟩
        · intro hR
          have hRT := hrec.1 hR
          rw [foldl_min_split (fun m => V (play_move b.copy m.1 m.2 c).2) rest
            (XFloat.fmin best v)] at hRT
          have hRfb : alphabetaPure_loop f b c false rest (XFloat.fmin best v)
              α₀ (XFloat.fmin β v)
              < XFloat.fmin best v :=
            lt_of_le_of_lt hR (lt_of_lt_of_le hαβ hβb2)
          have hMR : rest.foldl (fun x m => min x (V (play_move b.copy m.1 m.2 c).2))
                XFloat.pinf
              ≤ alphabetaPure_loop f b c false rest (XFloat.fmin best v)
                  α₀ (XFloat.fmin β v) := by
            rcases min_choice (XFloat.fmin best v)
                (rest.foldl (fun x m => min x (V (play_move b.copy m.1 m.2 c).2))
                  XFloat.pinf) with hM | hM
            · rw [hM] at hRT
              exact absurd hRT (not_le.mpr hRfb)
            · rw [hM] at hRT
              exact hRT
          rw [foldl_min_split (fun m => V (play_move b.copy m.1 m.2 c).2) rest
            (min best W)]
          exact le_trans (min_le_right _ _) hMR
        · intro hR
          have hRT := hrec.2.1 hR
          refine le_trans hRT ?_
          rw [XFloat.fmin_eq_min]
          exact foldl_min_mono _ rest (min_le_min le_rfl hvW)
        · intro h1 h2
          have hRT := hrec.2.2 h1 h2
          rcases le_or_lt best v with hbv | hvb
          · have e1 : XFloat.fmin best v = best := by
              rw [XFloat.fmin_eq_min]
              exact min_eq_left hbv
            have e2 : min best W = best := min_eq_left (le_trans hbv hvW)
            rw [hRT, e1, e2]
          · have e1 : XFloat.fmin best v = v := by
              rw [XFloat.fmin_eq_min]
              exact min_eq_right (le_of_lt hvb)
            have hβeq : β = β₀ := by
              rcases le_total β₀ best with hba | hab
              · rw [hβ]
                exact min_eq_left hba
              · exfalso
                have hβb : β = best := by
                  rw [hβ]
                  exact min_eq_right hab
                exact absurd (hβb ▸ hvβ) (not_le.mpr hvb)
            have hvβ₀ : β₀ ≤ v := hβeq ▸ hvβ
            have hbβ₀ : β₀ ≤ best := le_of_lt (lt_of_le_of_lt hvβ₀ hvb)
            have hWβ₀ : β₀ ≤ W := le_trans hvβ₀ hvW
            rw [foldl_min_split (fun m => V (play_move b.copy m.1 m.2 c).2) rest
              (XFloat.fmin best v)] at hRT
            have hRM : alphabetaPure_loop f b c false rest (XFloat.fmin best v)
                α₀ (XFloat.fmin β v)
                = rest.foldl (fun x m => min x (V (play_move b.copy m.1 m.2 c).2))
                    XFloat.pinf := by
              rcases min_choice (XFloat.fmin best v)
                  (rest.foldl (fun x m => min x (V (play_move b.copy m.1 m.2 c).2))
                    XFloat.pinf) with hM | hM
              · have hRv := (hRT.trans hM).trans e1
                exact absurd h2 (not_lt.mpr (hvβ₀.trans_eq hRv.symm))
              · exact hRT.trans hM
            rw [foldl_min_split (fun m => V (play_move b.copy m.1 m.2 c).2) rest
              (min best W)]
            rw [min_eq_right (le_of_lt (lt_of_lt_of_le (lt_of_eq_of_lt hRM.symm h2)
              (le_min hbβ₀ hWβ₀)))]
            exact hRM
      · rcases le_or_lt v α₀ with hvα | hvα2
        · exfalso
          refine hnocut ?_
          rw [XFloat.fmin_eq_min]
          exact le_trans (min_le_right _ _) hvα
        · have hE : v = W := habE hvα2 hvβ2
          have hWv2 : min best W = XFloat.fmin best v := by
            rw [XFloat.fmin_eq_min, hE]
          rw [hWv2]
          exact hrec

/-- Fail-soft correctness of memoless alpha-beta against memoless minimax:
relative to any nonempty window the pruned value fails low, fails high, or
is exact. -/
theorem alphabetaPure_ABrel (ev : GoBoard → Color → ℚ) :
    ∀ (d : ℕ) (b : GoBoard) (c : Color) (α β : XFloat) (m : Bool),
      α < β →
      ABrel (alphabetaPure ev d b c α β m) α β (minimaxPure ev d b c m) := by
  intro d
  induction d with
  | zero =>
    intro b c α β m hαβ
    exact ⟨fun _ => le_rfl, fun _ => le_rfl, fun _ _ => rfl⟩
  | succ d ih =>
    intro b c α β m hαβ
    by_cases hmv : get_legal_moves b c = []
    · have e1 : alphabetaPure ev (d + 1) b c α β m = XFloat.fin (ev b c) := by
        rw [alphabetaPure]
        simp [hmv]
      have e2 : minimaxPure ev (d + 1) b c m = XFloat.fin (ev b c) := by
        rw [minimaxPure]
        simp [hmv]
      rw [e1, e2]
      exact ⟨fun _ => le_rfl, fun _ => le_rfl, fun _ _ => rfl⟩
    · cases m with
      | true =>
        have e1 : alphabetaPure ev (d + 1) b c α β true
            = alphabetaPure_loop
                (fun bc a2 b2 => alphabetaPure ev d bc (opponent_color c) a2 b2 false)
                b c true (get_legal_moves b c) XFloat.ninf α β := by
          rw [alphabetaPure]
          simp [hmv, Bool.not_true]
        have e2 : minimaxPure ev (d + 1) b c true
            = (get_legal_moves b c).foldl
                (fun x mv => max x (minimaxPure ev d
                  (play_move b.copy mv.1 mv.2 c).2 (opponent_color c) false))
                XFloat.ninf := by
          rw [minimaxPure]
          simp [hmv, Bool.not_true, XFloat.fmax_eq_max]
        rw [e1, e2]
        exact abloop_max _ (fun bc => minimaxPure ev d bc (opponent_color c) false)
          b c β (fun bc a2 b2 h => ih bc (opponent_color c) a2 b2 false h) α
          (get_legal_moves b c) XFloat.ninf α
          (max_eq_left (XFloat.ninf_le α)).symm hαβ
      | false =>
        have e1 : alphabetaPure ev (d + 1) b c α β false
            = alphabetaPure_loop
                (fun bc a2 b2 => alphabetaPure ev d bc (opponent_color c) a2 b2 true)
                b c false (get_legal_moves b c) XFloat.pinf α β := by
          rw [alphabetaPure]
          simp [hmv, Bool.not_false]
        have e2 : minimaxPure ev (d + 1) b c false
            = (get_legal_moves b c).foldl
                (fun x mv => min x (minimaxPure ev d
                  (play_move b.copy mv.1 mv.2 c).2 (opponent_color c) true))
                XFloat.pinf := by
          rw [minimaxPure]
          simp [hmv, Bool.not_false, XFloat.fmin_eq_min]
        rw [e1, e2]
        exact abloop_min _ (fun bc => minimaxPure ev d bc (opponent_color c) true)
          b c α (fun bc a2 b2 h => ih bc (opponent_color c) a2 b2 true h) β
          (get_legal_moves b c) XFloat.pinf β
          (min_eq_left (XFloat.le_pinf β)).symm hαβ

theorem XFloat.blt_eq_false_of_not_lt {x y : XFloat} (h : ¬ x < y) :
    XFloat.blt x y = false := by
  cases hb : XFloat.blt x y with
  | false => rfl
  | true => exact absurd hb h

theorem XFloat.blt_eq_true_of_lt {x y : XFloat} (h : x < y) :
    XFloat.blt x y = true := h

/-- The memoless root loops of the two searches coincide: same best move
and same value, for every leaf evaluator, board, color and depth. -/
theorem alphabetaPureRoot_eq (ev : GoBoard → Color → ℚ) (b : GoBoard) (c : Color)
    (depth : ℕ) :
    alphabetaPureRoot ev b c depth = minimaxPureRoot ev b c depth := by
  rw [alphabetaPureRoot, minimaxPureRoot]
  have main : ∀ (ms : List Pos) (st : Option Pos × XFloat), st.2 ≠ XFloat.pinf →
      ms.foldl (fun (st : Option Pos × XFloat) mv =>
        let bc := (play_move b.copy mv.1 mv.2 c).2
        let v := alphabetaPure ev (depth - 1) bc (opponent_color c)
          st.2 XFloat.pinf false
        if XFloat.blt st.2 v then (some mv, v) else st) st
      = ms.foldl (fun (st : Option Pos × XFloat) mv =>
        let bc := (play_move b.copy mv.1 mv.2 c).2
        let v := minimaxPure ev (depth - 1) bc (opponent_color c) false
        if XFloat.blt st.2 v then (some mv, v) else st) st := by
    intro ms
    induction ms with
    | nil =>
      intro st _
      rfl
    | cons mv rest ih =>
      intro st hst
      simp only [List.foldl_cons]
      obtain ⟨q, hq⟩ := minimaxPure_fin ev (depth - 1)
        (play_move b.copy mv.1 mv.2 c).2 (opponent_color c) false
      have hαβ : st.2 < XFloat.pinf :=
        lt_of_le_of_ne (XFloat.le_pinf _) hst
      obtain ⟨hL, hH, hE⟩ := alphabetaPure_ABrel ev (depth - 1)
        (play_move b.copy mv.1 mv.2 c).2 (opponent_color c)
        st.2 XFloat.pinf false hαβ
      have hvAp : alphabetaPure ev (depth - 1) (play_move b.copy mv.1 mv.2 c).2
          (opponent_color c) st.2 XFloat.pinf false ≠ XFloat.pinf := by
        intro hp
        have h1 : XFloat.pinf ≤ alphabetaPure ev (depth - 1)
            (play_move b.copy mv.1 mv.2 c).2 (opponent_color c)
            st.2 XFloat.pinf false := le_of_eq hp.symm
        have h2 := le_antisymm (XFloat.le_pinf _) (le_trans h1 (hH h1))
        rw [hq] at h2
        cases h2
      rcases le_or_lt (alphabetaPure ev (depth - 1) (play_move b.copy mv.1 mv.2 c).2
          (opponent_color c) st.2 XFloat.pinf false) st.2 with hle | hgt
      · have hVle : minimaxPure ev (depth - 1) (play_move b.copy mv.1 mv.2 c).2
            (opponent_color c) false
            ≤ alphabetaPure ev (depth - 1) (play_move b.copy mv.1 mv.2 c).2
                (opponent_color c) st.2 XFloat.pinf false := hL hle
        rw [XFloat.blt_eq_false_of_not_lt (not_lt.mpr hle),
          XFloat.blt_eq_false_of_not_lt (not_lt.mpr (le_trans hVle hle))]
        simp only [Bool.false_eq_true, if_false]
        exact ih st hst
      · have hvA_lt : alphabetaPure ev (depth - 1) (play_move b.copy mv.1 mv.2 c).2
            (opponent_color c) st.2 XFloat.pinf false < XFloat.pinf :=
          lt_of_le_of_ne (XFloat.le_pinf _) hvAp
        have hEq := hE hgt hvA_lt
        rw [XFloat.blt_eq_true_of_lt hgt,
          XFloat.blt_eq_true_of_lt (lt_of_lt_of_eq hgt hEq)]
        simp only [if_true]
        rw [hEq]
        refine ih (some mv, minimaxPure ev (depth - 1)
          (play_move b.copy mv.1 mv.2 c).2 (opponent_color c) false) ?_
        rw [← hEq]
        exact hvAp
  exact main (get_legal_moves b c) (none, XFloat.ninf) (fun h => XFloat.noConfusion h)

/-- C3 fails as stated for the shipped searches: with the same leaf
evaluator on a 2×2 board at depth 5, minimax and alpha-beta minimax return
different root values.  The memo key `(board, color, depth)` ignores the
alpha/beta window, so alpha-beta reuses values that were cut off under a
narrower window. -/
theorem claim_C3_counterexample :
    (minimax evS C3board Color.white 5).2
      ≠ (alphabeta_minimax evS C3board Color.white 5).2 := by
  decide

/-- C3 (amended): without the memoization dictionaries the equivalence is
exact — for every leaf evaluator, board, color and depth, alpha-beta with
the unbounded initial window computes the minimax value at every node, and
the two root loops return the same best move and the same value.  The
divergence of the shipped code comes solely from sharing memo entries
across different pruning windows. -/
theorem claim_C3_amended :
    (∀ (ev : GoBoard → Color → ℚ) (d : ℕ) (b : GoBoard) (c : Color) (m : Bool),
      alphabetaPure ev d b c XFloat.ninf XFloat.pinf m = minimaxPure ev d b c m) ∧
    (∀ (ev : GoBoard → Color → ℚ) (b : GoBoard) (c : Color) (depth : ℕ),
      alphabetaPureRoot ev b c depth = minimaxPureRoot ev b c depth) := by
  constructor
  · intro ev d b c m
    obtain ⟨q, hq⟩ := minimaxPure_fin ev d b c m
    obtain ⟨hL, hH, hE⟩ := alphabetaPure_ABrel ev d b c XFloat.ninf XFloat.pinf m
      (show XFloat.blt XFloat.ninf XFloat.pinf = true from rfl)
    rcases le_or_lt (alphabetaPure ev d b c XFloat.ninf XFloat.pinf m)
        XFloat.ninf with hle | hgt
    · exfalso
      have h1 := le_antisymm (le_trans (hL hle) hle)
        (XFloat.ninf_le (minimaxPure ev d b c m))
      rw [hq] at h1
      cases h1
    · rcases le_or_lt XFloat.pinf
          (alphabetaPure ev d b c XFloat.ninf XFloat.pinf m) with hge | hlt
      · exfalso
        have h1 := le_antisymm (XFloat.le_pinf (minimaxPure ev d b c m))
          (le_trans hge (hH hge))
        rw [hq] at h1
        cases h1
      · exact hE hgt hlt
  · exact fun ev b c depth => alphabetaPureRoot_eq ev b c depth

/-- C9 fails as stated: a legal seven-move 2×2 game (each move accepted by
`play_actual_move`) reaches a board whose `count_score` totals exceed the
number of intersections — repeated captures inflate the capture counters,
which `count_score` adds to the territory counts. -/
theorem claim_C9_counterexample :
    ∃ (b : GoBoard) (c : Color), Reachable 2 b c ∧
      b.size * b.size < (count_score b).1 + (count_score b).2 := by
  refine ⟨C9b7, opponent_color Color.black, ?_, by decide⟩
  exact Reachable.step C9b6 Color.black (1, 0)
    (Reachable.step C9b5 Color.white (0, 0)
      (Reachable.step C9b4 Color.black (1, 0)
        (Reachable.step C9b3 Color.white (1, 1)
          (Reachable.step C9b2 Color.black (1, 0)
            (Reachable.step C9b1 Color.white (0, 1)
              (Reachable.step C9b0 Color.black (0, 0)
                Reachable.init (by decide))
              (by decide))
            (by decide))
          (by decide))
        (by decide))
      (by decide))
    (by decide)

theorem mem_allCells {sz : ℕ} {p : Pos} (h : p ∈ allCells sz) :
    is_on_board sz p.1 p.2 = true := by
  simp only [allCells, List.mem_bind, List.mem_map, List.mem_range] at h
  obtain ⟨x, hx, y, hy, rfl⟩ := h
  simp at hy
  obtain ⟨y2, hy2, rfl⟩ := hy
  simp only [is_on_board, decide_eq_true_eq]
  omega

theorem get_neighbors_nonempty {sz : ℕ} (h2 : 2 ≤ sz) {p : Pos}
    (hob : is_on_board sz p.1 p.2 = true) :
    ∃ n, n ∈ get_neighbors sz p := by
  simp only [is_on_board, decide_eq_true_eq] at hob
  by_cases hx : p.1 + 1 < (sz : ℤ)
  · refine ⟨(p.1 + 1, p.2), ?_⟩
    simp only [get_neighbors, List.mem_filter, is_on_board, decide_eq_true_eq]
    constructor
    · simp
    · omega
  · refine ⟨(p.1 - 1, p.2), ?_⟩
    simp only [get_neighbors, List.mem_filter, is_on_board, decide_eq_true_eq]
    constructor
    · simp
    · omega

/-- Structural facts about the scoring flood fill: the returned visited set
is the initial one plus the collected group, the group consists of on-board
empty cells, it extends the initial group, and it is disjoint from the
initial visited set. -/
theorem floodLoop_basic (sz : ℕ) (g : Grid) (v0 : Finset Pos) :
    ∀ (fuel : ℕ) (stack : List Pos) (visited group : Finset Pos),
      visited = v0 ∪ group →
      (∀ q ∈ group, is_on_board sz q.1 q.2 = true ∧ cellAt g q = none) →
      group ∩ v0 = ∅ →
      (∀ q ∈ stack, is_on_board sz q.1 q.2 = true ∧ cellAt g q = none) →
      (floodLoop sz g fuel visited group stack).1
          = v0 ∪ (floodLoop sz g fuel visited group stack).2 ∧
      (∀ q ∈ (floodLoop sz g fuel visited group stack).2,
          is_on_board sz q.1 q.2 = true ∧ cellAt g q = none) ∧
      group ⊆ (floodLoop sz g fuel visited group stack).2 ∧
      (floodLoop sz g fuel visited group stack).2 ∩ v0 = ∅ := by
  intro fuel
  induction fuel with
  | zero =>
    intro stack visited group h1 h2 hdis h3
    exact ⟨h1, h2, Finset.Subset.refl _, hdis⟩
  | succ f ih =>
    intro stack visited group h1 h2 hdis h3
    cases stack with
    | nil =>
      exact ⟨h1, h2, Finset.Subset.refl _, hdis⟩
    | cons c rest =>
      rw [floodLoop]
      by_cases hc : c ∈ group ∨ c ∈ visited
      · rw [if_pos hc]
        exact ih rest visited group h1 h2 hdis
          (fun q hq => h3 q (List.mem_cons_of_mem _ hq))
      · rw [if_neg hc]
        push_neg at hc
        obtain ⟨hc1, hc2⟩ := hc
        obtain ⟨hcob, hcempty⟩ := h3 c (List.mem_cons_self _ _)
        have hcv0 : c ∉ v0 := by
          intro hcv
          exact hc2 (h1 ▸ Finset.mem_union_left _ hcv)
      
        have h1' : insert c visited = v0 ∪ insert c group := by
          rw [h1, Finset.union_insert]
        have h2' : ∀ q ∈ insert c group,
            is_on_board sz q.1 q.2 = true ∧ cellAt g q = none := by
          intro q hq
          rcases Finset.mem_insert.mp hq with rfl | hq
          · exact ⟨hcob, hcempty⟩
          · exact h2 q hq
        have hdis' : insert c group ∩ v0 = ∅ := by
          rw [Finset.insert_inter_of_not_mem hcv0]
          exact hdis
        have h3' : ∀ q ∈ ((get_neighbors sz c).filter
              (fun n => cellAt g n = none ∧ n ∉ insert c group)).reverse ++ rest,
            is_on_board sz q.1 q.2 = true ∧ cellAt g q = none := by
          intro q hq
          rcases List.mem_append.mp hq with hq | hq
          · rw [List.mem_reverse] at hq
            obtain ⟨hqn, hqc⟩ := List.mem_filter.mp hq
            refine ⟨mem_get_neighbors hqn, ?_⟩
            simpa using (of_decide_eq_true hqc).1
          · exact h3 q (List.mem_cons_of_mem _ hq)
        obtain ⟨r1, r2, r3, r4⟩ := ih _ (insert c visited) (insert c group)
          h1' h2' hdis' h3'
        exact ⟨r1, r2,
          Finset.Subset.trans (Finset.subset_insert _ _) r3, r4⟩

/-- The seed cell always ends up in the collected flood group. -/
theorem floodLoop_seed (sz : ℕ) (g : Grid) (fuel : ℕ) (visited : Finset Pos)
    (p : Pos) (hp : p ∉ visited) (hob : is_on_board sz p.1 p.2 = true)
    (he : cellAt g p = none) :
    p ∈ (floodLoop sz g (fuel + 1) visited ∅ [p]).2 := by
  rw [floodLoop]
  rw [if_neg (by simp [hp])]
  have h1' : insert p visited = visited ∪ insert p ∅ := by
    rw [Finset.union_insert, Finset.union_empty]
  have h2' : ∀ q ∈ insert p (∅ : Finset Pos),
      is_on_board sz q.1 q.2 = true ∧ cellAt g q = none := by
    intro q hq
    rcases Finset.mem_insert.mp hq with rfl | hq
    · exact ⟨hob, he⟩
    · exact absurd hq (Finset.not_mem_empty q)
  have hdis' : insert p (∅ : Finset Pos) ∩ visited = ∅ := by
    rw [Finset.insert_inter_of_not_mem hp, Finset.empty_inter]
  have h3' : ∀ q ∈ ((get_neighbors sz p).filter
        (fun n => cellAt g n = none ∧ n ∉ insert p (∅ : Finset Pos))).reverse ++ [],
      is_on_board sz q.1 q.2 = true ∧ cellAt g q = none := by
    intro q hq
    rcases List.mem_append.mp hq with hq | hq
    · rw [List.mem_reverse] at hq
      obtain ⟨hqn, hqc⟩ := List.mem_filter.mp hq
      refine ⟨mem_get_neighbors hqn, ?_⟩
      simpa using (of_decide_eq_true hqc).1
    · exact absurd hq (List.not_mem_nil q)
  have := (floodLoop_basic sz g visited fuel _ (insert p visited) (insert p ∅)
    h1' h2' hdis' h3').2.2.1
  exact this (Finset.mem_insert_self p ∅)

/-- On a board of size ≥ 2, no region can be surrounded by both colors:
any cell has at least one on-board neighbor, and that neighbor cannot hold
a black and a white stone at once. -/
theorem not_surrounded_both {sz : ℕ} (h2 : 2 ≤ sz) (g : Grid)
    (group : Finset Pos) (p : Pos) (hp : p ∈ group)
    (hob : is_on_board sz p.1 p.2 = true) :
    ¬ (is_surrounded sz g group Color.black = true
        ∧ is_surrounded sz g group Color.white = true) := by
  rintro ⟨hb, hw⟩
  rw [is_surrounded, decide_eq_true_eq] at hb hw
  obtain ⟨n, hn⟩ := get_neighbors_nonempty h2 hob
  have e1 := hb p hp n hn
  have e2 := hw p hp n hn
  rw [e1] at e2
  simp at e2

/-- The joint scan invariant for the two `count_area` passes: both passes
visit the same cells, the visited set consists of on-board empty cells, and
the two accumulated scores together never exceed its size. -/
theorem count_area_pair_loop (sz : ℕ) (g : Grid) (h2 : 2 ≤ sz) :
    ∀ (ps : List Pos) (vis : Finset Pos) (sB sW : ℕ),
      (∀ q ∈ vis, q ∈ onboardFinset sz ∧ cellAt g q = none) →
      sB + sW ≤ vis.card →
      (∀ p ∈ ps, is_on_board sz p.1 p.2 = true) →
      ∃ (vis2 : Finset Pos),
        (ps.foldl (fun (st : Finset Pos × ℕ) p =>
          if cellAt g p = none ∧ p ∉ st.1 then
            let fl := floodLoop sz g (floodFuel sz) st.1 ∅ [p]
            (fl.1, st.2 + if is_surrounded sz g fl.2 Color.black
              then fl.2.card else 0)
          else st) (vis, sB)).1 = vis2 ∧
        (ps.foldl (fun (st : Finset Pos × ℕ) p =>
          if cellAt g p = none ∧ p ∉ st.1 then
            let fl := floodLoop sz g (floodFuel sz) st.1 ∅ [p]
            (fl.1, st.2 + if is_surrounded sz g fl.2 Color.white
              then fl.2.card else 0)
          else st) (vis, sW)).1 = vis2 ∧
        (∀ q ∈ vis2, q ∈ onboardFinset sz ∧ cellAt g q = none) ∧
        (ps.foldl (fun (st : Finset Pos × ℕ) p =>
          if cellAt g p = none ∧ p ∉ st.1 then
            let fl := floodLoop sz g (floodFuel sz) st.1 ∅ [p]
            (fl.1, st.2 + if is_surrounded sz g fl.2 Color.black
              then fl.2.card else 0)
          else st) (vis, sB)).2
          + (ps.foldl (fun (st : Finset Pos × ℕ) p =>
          if cellAt g p = none ∧ p ∉ st.1 then
            let fl := floodLoop sz g (floodFuel sz) st.1 ∅ [p]
            (fl.1, st.2 + if is_surrounded sz g fl.2 Color.white
              then fl.2.card else 0)
          else st) (vis, sW)).2 ≤ vis2.card := by
  intro ps
  induction ps with
  | nil =>
    intro vis sB sW hvis hsum hps
    exact ⟨vis, rfl, rfl, hvis, hsum⟩
  | cons p ps ih =>
    intro vis sB sW hvis hsum hps
    have hpob : is_on_board sz p.1 p.2 = true := hps p (List.mem_cons_self _ _)
    rw [List.foldl_cons, List.foldl_cons]
    by_cases hg : cellAt g p = none ∧ p ∉ vis
    · dsimp only
      rw [if_pos hg, if_pos hg]
      obtain ⟨r1, r2, _, r4⟩ := floodLoop_basic sz g vis (floodFuel sz) [p] vis ∅
        (Finset.union_empty vis).symm
        (fun q hq => absurd hq (Finset.not_mem_empty q))
        (Finset.empty_inter vis)
        (by
          intro q hq
          rw [List.mem_singleton] at hq
          subst hq
          exact ⟨hpob, hg.1⟩)
      have hseed : p ∈ (floodLoop sz g (floodFuel sz) vis ∅ [p]).2 :=
        floodLoop_seed sz g (4 * sz * sz + 7) vis p hg.2 hpob hg.1
      have hdisj : Disjoint vis (floodLoop sz g (floodFuel sz) vis ∅ [p]).2 := by
        rw [Finset.disjoint_right]
        intro a ha hav
        have := Finset.eq_empty_iff_forall_not_mem.mp r4 a
        exact this (Finset.mem_inter.mpr ⟨ha, hav⟩)
      have hcard : (floodLoop sz g (floodFuel sz) vis ∅ [p]).1.card
          = vis.card + (floodLoop sz g (floodFuel sz) vis ∅ [p]).2.card := by
        rw [r1, Finset.card_union_of_disjoint hdisj]
      have hind : (if is_surrounded sz g
            (floodLoop sz g (floodFuel sz) vis ∅ [p]).2 Color.black
          then (floodLoop sz g (floodFuel sz) vis ∅ [p]).2.card else 0)
          + (if is_surrounded sz g
            (floodLoop sz g (floodFuel sz) vis ∅ [p]).2 Color.white
          then (floodLoop sz g (floodFuel sz) vis ∅ [p]).2.card else 0)
          ≤ (floodLoop sz g (floodFuel sz) vis ∅ [p]).2.card := by
        cases hsb : is_surrounded sz g (floodLoop sz g (floodFuel sz) vis ∅ [p]).2 Color.black with
        | false =>
          cases hsw : is_surrounded sz g (floodLoop sz g (floodFuel sz) vis ∅ [p]).2 Color.white with
          | false => simp [hsb, hsw]
          | true => simp [hsb, hsw]
        | true =>
          cases hsw : is_surrounded sz g (floodLoop sz g (floodFuel sz) vis ∅ [p]).2 Color.white with
          | false => simp [hsb, hsw]
          | true =>
            exact absurd ⟨hsb, hsw⟩
              (not_surrounded_both h2 g _ p hseed hpob)
      have hvis2 : ∀ q ∈ vis ∪ (floodLoop sz g (floodFuel sz) vis ∅ [p]).2,
          q ∈ onboardFinset sz ∧ cellAt g q = none := by
        intro q hq
        rcases Finset.mem_union.mp hq with hq | hq
        · exact hvis q hq
        · obtain ⟨hqo, hqe⟩ := r2 q hq
          exact ⟨mem_onboardFinset.mpr hqo, hqe⟩
      have hsum2 : (sB + (if is_surrounded sz g
            (floodLoop sz g (floodFuel sz) vis ∅ [p]).2 Color.black
          then (floodLoop sz g (floodFuel sz) vis ∅ [p]).2.card else 0))
          + (sW + (if is_surrounded sz g
            (floodLoop sz g (floodFuel sz) vis ∅ [p]).2 Color.white
          then (floodLoop sz g (floodFuel sz) vis ∅ [p]).2.card else 0))
          ≤ (vis ∪ (floodLoop sz g (floodFuel sz) vis ∅ [p]).2).card := by
        rw [← r1, hcard]
        omega
      have := ih (vis ∪ (floodLoop sz g (floodFuel sz) vis ∅ [p]).2)
        (sB + (if is_surrounded sz g
            (floodLoop sz g (floodFuel sz) vis ∅ [p]).2 Color.black
          then (floodLoop sz g (floodFuel sz) vis ∅ [p]).2.card else 0))
        (sW + (if is_surrounded sz g
            (floodLoop sz g (floodFuel sz) vis ∅ [p]).2 Color.white
          then (floodLoop sz g (floodFuel sz) vis ∅ [p]).2.card else 0))
        hvis2 hsum2 (fun q hq => hps q (List.mem_cons_of_mem _ hq))
      rw [r1]
      exact this
    · dsimp only
      rw [if_neg hg, if_neg hg]
      exact ih vis sB sW hvis hsum (fun q hq => hps q (List.mem_cons_of_mem _ hq))

/-- The two `count_area` passes together never count more than the number
of intersections. -/
theorem count_area_pair (sz : ℕ) (g : Grid) (h2 : 2 ≤ sz) :
    count_area sz g Color.black + count_area sz g Color.white ≤ sz * sz := by
  rw [count_area, count_area]
  obtain ⟨vis2, e1, e2, h3, h4⟩ := count_area_pair_loop sz g h2 (allCells sz) ∅ 0 0
    (fun q hq => absurd hq (Finset.not_mem_empty q))
    (by simp)
    (fun p hp => mem_allCells hp)
  calc _ ≤ vis2.card := h4
    _ ≤ (onboardFinset sz).card := Finset.card_le_card (fun q hq => (h3 q hq).1)
    _ = sz * sz := onboardFinset_card sz

/-- C9 (amended): on any board of size ≥ 2 the two `count_score` components
are bounded by the number of intersections plus the accumulated capture
counters — the bound claimed by the spec holds only after adding the
capture terms, which the seven-move counterexample shows can grow without
bound on reachable boards. -/
theorem claim_C9_amended (b : GoBoard) (h2 : 2 ≤ b.size) :
    (count_score b).1 + (count_score b).2
      ≤ b.size * b.size + b.captured.black + b.captured.white := by
  have h := count_area_pair b.size b.board h2
  rw [count_score]
  dsimp only
  omega

theorem claim_C9_amended_witness :
    2 ≤ C9b7.size ∧
    (count_score C9b7).1 + (count_score C9b7).2
      ≤ C9b7.size * C9b7.size + C9b7.captured.black + C9b7.captured.white :=
  ⟨by decide, claim_C9_amended C9b7 (by decide)⟩

theorem pyGet_nonneg {α : Type _} (l : List α) (i : ℤ) (h : 0 ≤ i) :
    pyGet l i = l.get? i.toNat := by
  simp only [pyGet]
  rw [if_neg (not_lt.mpr h), if_pos h]

theorem pyGet_neg {α : Type _} (l : List α) (i : ℤ) (h1 : i < 0)
    (h2 : 0 ≤ (l.length : ℤ) + i) :
    pyGet l i = l.get? ((l.length : ℤ) + i).toNat := by
  simp only [pyGet]
  rw [if_pos h1, if_pos h2]

theorem pyGet_none_of_ge {α : Type _} (l : List α) (i : ℤ) (h0 : 0 ≤ i)
    (h : (l.length : ℤ) ≤ i) : pyGet l i = none := by
  rw [pyGet_nonneg l i h0]
  rw [List.get?_eq_none]
  omega

theorem pyCellRead_in_range (g : Grid) (sz : ℕ) (hwf : wfGrid sz g) (x y : ℤ)
    (hx : 0 ≤ x) (hx2 : x < sz) (hy : 0 ≤ y) (hy2 : y < sz) :
    pyCellRead g x y = some (cellAt g (x, y)) := by
  obtain ⟨hlen, hrows⟩ := hwf
  have hxlt : x.toNat < g.length := by omega
  obtain ⟨row, hrow⟩ : ∃ row, g.get? x.toNat = some row :=
    ⟨_, List.get?_eq_get hxlt⟩
  have hrowlen : row.length = sz := hrows row (List.get?_mem hrow)
  rw [pyCellRead, pyGet_nonneg g x hx, hrow]
  have hylt : y.toNat < row.length := by omega
  simp only [pyGet_nonneg row y hy, cellAt, hrow, Option.getD_some,
    List.get?_eq_get hylt]

theorem pySetCell_in_range (g : Grid) (sz : ℕ) (hwf : wfGrid sz g) (x y : ℤ)
    (v : Cell) (hx : 0 ≤ x) (hx2 : x < sz) (hy : 0 ≤ y) (hy2 : y < sz) :
    pySetCell g x y v = some (setCell g (x, y) v) := by
  obtain ⟨hlen, hrows⟩ := hwf
  have hxlt : x.toNat < g.length := by omega
  obtain ⟨row, hrow⟩ : ∃ row, g.get? x.toNat = some row :=
    ⟨_, List.get?_eq_get hxlt⟩
  have hrowlen : row.length = sz := hrows row (List.get?_mem hrow)
  rw [pySetCell, pyGet_nonneg g x hx, hrow]
  simp only [if_neg (not_lt.mpr hx)]
  rw [if_pos (by constructor <;> omega)]
  simp only [setCell, hrow, Option.getD_some, if_neg (not_lt.mpr hy)]

theorem pyCellRead_high (g : Grid) (sz : ℕ) (hwf : wfGrid sz g) (x y : ℤ)
    (hx : 0 ≤ x) (hy : 0 ≤ y) (hbig : (sz : ℤ) ≤ x ∨ (sz : ℤ) ≤ y) :
    pyCellRead g x y = none := by
  obtain ⟨hlen, hrows⟩ := hwf
  by_cases hxb : (sz : ℤ) ≤ x
  · rw [pyCellRead, pyGet_none_of_ge g x hx (by omega)]
  · have hyb : (sz : ℤ) ≤ y := by
      rcases hbig with h | h
      · exact absurd h hxb
      · exact h
    have hxlt : x.toNat < g.length := by omega
    obtain ⟨row, hrow⟩ : ∃ row, g.get? x.toNat = some row :=
      ⟨_, List.get?_eq_get hxlt⟩
    have hrowlen : row.length = sz := hrows row (List.get?_mem hrow)
    rw [pyCellRead, pyGet_nonneg g x hx, hrow]
    simp only [pyGet_none_of_ge row y hy (by omega)]

theorem pyCellRead_neg_wrap (g : Grid) (sz : ℕ) (hwf : wfGrid sz g) (x y : ℤ)
    (hx1 : -(sz : ℤ) ≤ x) (hx2 : x < 0) (hy1 : 0 ≤ y) (hy2 : y < sz) :
    pyCellRead g x y = some (cellAt g (x + sz, y)) := by
  obtain ⟨hlen, hrows⟩ := hwf
  have h2 : 0 ≤ (g.length : ℤ) + x := by omega
  have hgx : (g.length : ℤ) + x = x + (sz : ℤ) := by
    rw [hlen]
    ring
  have hxlt : (x + (sz : ℤ)).toNat < g.length := by omega
  obtain ⟨row, hrow⟩ : ∃ row, g.get? (x + (sz : ℤ)).toNat = some row :=
    ⟨_, List.get?_eq_get hxlt⟩
  have hrowlen : row.length = sz := hrows row (List.get?_mem hrow)
  rw [pyCellRead, pyGet_neg g x hx2 h2, hgx, hrow]
  have hylt : y.toNat < row.length := by omega
  simp only [pyGet_nonneg row y hy1, cellAt, hrow, Option.getD_some,
    List.get?_eq_get hylt]

/-- C10: `is_legal_move` implicitly requires `(x, y)` on the board.  With
Python indexing semantics for its two raw grid accesses: coordinates at or
beyond the board size raise `IndexError` (`none`, an error rather than a
`False` result); negative coordinates silently wrap to the opposite edge
(here reading an occupied wrapped cell and answering `False`); and on the
precondition `0 ≤ x < N ∧ 0 ≤ y < N` the function is total and computes
the legality verdict. -/
theorem claim_C10 :
    (∀ (b : GoBoard) (x y : ℤ) (c : Color), wfGrid b.size b.board →
      0 ≤ x → 0 ≤ y → ((b.size : ℤ) ≤ x ∨ (b.size : ℤ) ≤ y) →
      isLegalMovePy b x y c = none) ∧
    (∀ (b : GoBoard) (x y : ℤ) (c : Color) (col : Color),
      wfGrid b.size b.board →
      -(b.size : ℤ) ≤ x → x < 0 → 0 ≤ y → y < b.size →
      cellAt b.board (x + b.size, y) = some col →
      isLegalMovePy b x y c = some false) ∧
    (∀ (b : GoBoard) (x y : ℤ) (c : Color), wfGrid b.size b.board →
      0 ≤ x → x < b.size → 0 ≤ y → y < b.size →
      isLegalMovePy b x y c = some (is_legal_move b x y c)) := by
  refine ⟨?_, ?_, ?_⟩
  · intro b x y c hwf hx hy hbig
    simp only [isLegalMovePy, pyCellRead_high b.board b.size hwf x y hx hy hbig]
  · intro b x y c col hwf hx1 hx2 hy1 hy2 hocc
    simp only [isLegalMovePy,
      pyCellRead_neg_wrap b.board b.size hwf x y hx1 hx2 hy1 hy2, hocc]
  · intro b x y c hwf hx hx2 hy hy2
    have hread := pyCellRead_in_range b.board b.size hwf x y hx hx2 hy hy2
    have hwrite := pySetCell_in_range b.board b.size hwf x y (some c) hx hx2 hy hy2
    cases hcell : cellAt b.board (x, y) with
    | some col =>
      rw [hcell] at hread
      simp only [isLegalMovePy, hread]
      simp [is_legal_move, hcell]
    | none =>
      rw [hcell] at hread
      simp only [isLegalMovePy, hread, hwrite]
      simp only [is_legal_move, hcell, ne_eq, not_true_eq_false, if_false]
      by_cases hprev : setCell b.board (x, y) (some c) ∈ b.previous_boards
      · simp only [if_pos hprev]
      · simp only [if_neg hprev]
        cases hscan : legalScan b.size c (b.last_captured.get c) b.previous_boards (setCell b.board (x, y) (some c)) (get_neighbors b.size (x, y)) with
        | some r => simp [hscan]
        | none => simp [hscan]

theorem claim_C10_witness :
    wfGrid C1board.size C1board.board ∧
    isLegalMovePy C1board 2 0 Color.black = none ∧
    isLegalMovePy C1board (-1) 0 Color.black = some false ∧
    isLegalMovePy C1board 0 0 Color.black
      = some (is_legal_move C1board 0 0 Color.black) :=
  ⟨by decide,
   claim_C10.1 C1board 2 0 Color.black (by decide) (by decide) (by decide)
     (by decide),
   claim_C10.2.1 C1board (-1) 0 Color.black Color.white (by decide) (by decide)
     (by decide) (by decide) (by decide) (by decide),
   claim_C10.2.2 C1board 0 0 Color.black (by decide) (by decide) (by decide)
     (by decide) (by decide)⟩
